import Mathlib

/-!
A formal model of the `minuet-server-web` static content server
(`src/index.ts`), together with theorems about its buffering walk,
path resolution, not-found policy, directory navigation and dispatch.

Strings are modelled as Lean `String`; the JavaScript string
primitives the source uses (`split`, `join`, `substring`, `indexOf`,
`path.extname`, `path.basename`, `path.dirname`) are defined below
over the underlying character lists with JavaScript semantics.
The filesystem consumed by the walk and by `fs.existsSync` /
`fs.readFileSync` is modelled as a first-order tree of named entries;
an unreadable directory models a thrown `readdirSync` error.
-/

namespace MinuetWebModel

/-- JS `sep` is a prefix of `s` (char-level). -/
def leadsWith : List Char → List Char → Bool
  | [], _ => true
  | _ :: _, [] => false
  | p :: ps, c :: cs => p == c && leadsWith ps cs

/-- Fuelled worker for JS `String.prototype.split` with a nonempty
separator; the fuel is always instantiated with the length of the
input, which suffices because every step consumes at least one
character. -/
def jsSplitAux (sep : List Char) : Nat → List Char → List (List Char)
  | 0, cs => [cs]
  | _ + 1, [] => [[]]
  | fuel + 1, c :: cs =>
    if !sep.isEmpty && leadsWith sep (c :: cs) then
      [] :: jsSplitAux sep fuel (List.drop sep.length (c :: cs))
    else
      match jsSplitAux sep fuel cs with
      | [] => [[c]]
      | h :: t => (c :: h) :: t

/-- JS `s.split(sep)` over char lists (nonempty separator). -/
def jsSplitL (sep cs : List Char) : List (List Char) :=
  jsSplitAux sep cs.length cs

/-- JS `Array.prototype.join(sep)` over char lists. -/
def joinL (sep : List Char) : List (List Char) → List Char
  | [] => []
  | [p] => p
  | p :: q :: rest => p ++ sep ++ joinL sep (q :: rest)

/-- The source's `.split("//").join("/")` double-slash collapsing. -/
def collapseL (cs : List Char) : List Char :=
  joinL ['/'] (jsSplitL ['/', '/'] cs)

def strOf (cs : List Char) : String := String.mk cs

/-- JS `s.split(sep)` on `String`. -/
def jsSplit (sep s : String) : List String :=
  (jsSplitL sep.data s.data).map strOf

/-- `s.split("//").join("/")` on `String`. -/
def collapseDS (s : String) : String := strOf (collapseL s.data)

/-- JS `s.substring(n)` (start index only). -/
def jsSubstrFrom (s : String) (n : Nat) : String := strOf (s.data.drop n)

/-- JS `s.split(tok).join(rep)`: replace every occurrence of `tok` by `rep`. -/
def jsReplaceAll (tok rep s : String) : String :=
  strOf (joinL rep.data (jsSplitL tok.data s.data))

/-- The query-stripping step `s.split("?")[0]`. -/
def stripQuery (s : String) : String := (jsSplit "?" s).headD ""

/-- JS `s.indexOf(p) == 0`, i.e. `s` starts with `p`. -/
def leadsWithS (p s : String) : Bool := leadsWith p.data s.data

/-- Node `path.extname(s).substring(1)`: the characters after the last
dot of the basename, or `""` when the basename has no dot, a leading
dot only, or a trailing dot. -/
def extOf (s : String) : String :=
  let base := (jsSplitL ['/'] s.data).getLastD []
  let afterRev := base.reverse.takeWhile (fun c => c ≠ '.')
  if base.length ≤ afterRev.length + 1 then "" else strOf afterRev.reverse

/-- Node `path.basename`. -/
def jsBasename (s : String) : String :=
  let cs := s.data
  let trimmed := (cs.reverse.dropWhile (fun c => c = '/')).reverse
  if trimmed.isEmpty then (if cs.isEmpty then "" else "/")
  else strOf ((jsSplitL ['/'] trimmed).getLastD [])

/-- Node `path.dirname` (posix). -/
def jsDirname (s : String) : String :=
  let cs := s.data
  if cs.isEmpty then "." else
  let hasRoot := cs.head? = some '/'
  let body := cs.drop 1
  let trimmedRev := body.reverse.dropWhile (fun c => c = '/')
  let rest := trimmedRev.dropWhile (fun c => c ≠ '/')
  if rest.isEmpty then (if hasRoot then "/" else ".")
  else if hasRoot ∧ rest.length = 1 then "//"
  else strOf (cs.take rest.length)

/-- JS object read `m[k]` for a string-keyed object modelled as an
insertion-ordered association list with unique keys. -/
def objGet {α : Type} (m : List (String × α)) (k : String) : Option α :=
  match m with
  | [] => none
  | (k', v) :: rest => if k' = k then some v else objGet rest k

/-- JS object write `m[k] = v`: overwrite in place, else append. -/
def objSet {α : Type} (m : List (String × α)) (k : String) (v : α) :
    List (String × α) :=
  match m with
  | [] => [(k, v)]
  | (k', v') :: rest =>
    if k' = k then (k', v) :: rest else (k', v') :: objSet rest k v

/-- JS `Object.keys` (insertion order). -/
def objKeys {α : Type} (m : List (String × α)) : List String := m.map (·.1)

/-- `Buffer.prototype.toString` restricted to the code points the
model uses (the listing template is plain ASCII). -/
def bufToString (b : List Nat) : String := strOf (b.map Char.ofNat)

/-! ## The filesystem model

A directory listing is a chain of named entries, in `readdirSync`
order.  `badDirE` is a directory whose `readdirSync` throws
(e.g. a permissions failure), modelling a build-time I/O error. -/

inductive FsT where
  | nilE : FsT
  | fileE (name : String) (content : List Nat) (rest : FsT) : FsT
  | dirE (name : String) (children : FsT) (rest : FsT) : FsT
  | badDirE (name : String) (rest : FsT) : FsT
deriving DecidableEq

/-- The content of the file at a `/`-segment path (first entry whose
name matches each segment wins, as with a real directory listing). -/
def fileAt : FsT → List String → Option (List Nat)
  | .nilE, _ => none
  | _, [] => none
  | .fileE n c r, s :: rest =>
    if n = s then (if rest.isEmpty then some c else none) else fileAt r (s :: rest)
  | .dirE n ch r, s :: rest =>
    if n = s then (if rest.isEmpty then none else fileAt ch rest) else fileAt r (s :: rest)
  | .badDirE n r, s :: rest =>
    if n = s then none else fileAt r (s :: rest)

/-- Whether anything (file or directory) lives at a segment path. -/
def existsP : FsT → List String → Bool
  | .nilE, _ => false
  | _, [] => false
  | .fileE n _ r, s :: rest =>
    if n = s then rest.isEmpty else existsP r (s :: rest)
  | .dirE n ch r, s :: rest =>
    if n = s then (rest.isEmpty || existsP ch rest) else existsP r (s :: rest)
  | .badDirE n r, s :: rest =>
    if n = s then rest.isEmpty else existsP r (s :: rest)

/-- Path string to segments: split on `/`, drop empty segments
(POSIX collapses repeated slashes). -/
def segsOf (p : String) : List String :=
  (jsSplit "/" p).filter (fun s => s ≠ "")

/-- `fs.existsSync` against the modelled tree. -/
def existsSync (world : FsT) (p : String) : Bool := existsP world (segsOf p)

/-- `fs.readFileSync` against the modelled tree: `none` models a
throw (missing path, or a directory). -/
def fsReadFile (world : FsT) (p : String) : Option (List Nat) :=
  fileAt world (segsOf p)

/-! ## Configuration and state (the `MinuetWeb` class) -/

/-- `DefaultMimes` from the source. -/
def defaultMimes : List (String × String) :=
  [("jpg", "image/jpeg"), ("png", "image/png"), ("gif", "image/jig"),
   ("tif", "image/tiff"), ("tiff", "image/tiff"), ("svg", "image/svg+xml"),
   ("ico", "image/vnd.microsoft.icon"), ("mp3", "audio/mp3"),
   ("aac", "audio/aac"), ("txt", "text/plain"), ("css", "text/css"),
   ("js", "text/javascript"), ("html", "text/html"), ("htm", "text/html"),
   ("xml", "text/xml"), ("woff", "font/woff"), ("woff2", "font/woff2"),
   ("ttf", "font/ttf"), ("zip", "application/zip"), ("bz", "application/x-bzip"),
   ("gz", "application/gzip"), ("7z", "application/x-7z-compressed"),
   ("csv", "text/csv")]

/-- The `notFound` option: a boolean or a 404-page file path. -/
inductive NotFoundOpt where
  | ofBool (b : Bool)
  | ofStr (s : String)
deriving DecidableEq

/-- The `MinuetWeb` object: option fields plus the two mutable
stores (`buffers` is the Asset Store, `directoryBuffers` the
Directory Index). -/
structure MinuetWeb where
  url : String := "/"
  rootDir : String := "htdocs"
  mimes : List (String × String) := defaultMimes
  headers : List (String × Option String) := []
  buffering : Bool := true
  bufferingMaxSize : Nat := 8000000
  directReading : Bool := false
  notFound : NotFoundOpt := .ofBool false
  directoryIndexs : List String := []
  listNavigator : Bool := false
  buffers : List (String × List Nat) := []
  directoryBuffers : List String := []
deriving DecidableEq

/-- Reserved Asset Store key for the 404 page (`MinuetWebBufferName.notFound`). -/
def notFoundKey : String := "#notfound"

/-- Reserved Asset Store key for the listing template
(`MinuetWebBufferName.listNavigator`). -/
def navKey : String := "#listNavigator"

/-- `hasMine`: the name's extension must be nonempty and map to a
truthy entry of the MIME table. -/
def hasMine (mimes : List (String × String)) (target : String) : Bool :=
  let ext := extOf target
  if ext = "" then false
  else
    match objGet mimes ext with
    | none => false
    | some v => v != ""

/-- `getMime`: the MIME value for the target's extension (may be absent). -/
def getMime (mimes : List (String × String)) (target : String) : Option String :=
  objGet mimes (extOf target)

/-- The Asset Store key `addBuffer` computes:
`(url + filePath.substring(rootDir.length)).split("//").join("/")`. -/
def bufKeyP (url : String) (rootLen : Nat) (filePath : String) : String :=
  collapseDS (url ++ jsSubstrFrom filePath rootLen)

/-- `addBuffer`: insert one path/content pair (no size or MIME check). -/
def addBuffer (m : MinuetWeb) (filePath : String) (content : List Nat) :
    MinuetWeb :=
  { m with buffers := objSet m.buffers (bufKeyP m.url m.rootDir.data.length filePath) content }

/-- The Directory Index key the walk pushes:
`(targetPath + "/" + name).substring(rootDir.length).split("//").join("/")`. -/
def dirKeyP (rootLen : Nat) (p : String) : String :=
  collapseDS (jsSubstrFrom p rootLen)

/-- The recursive walk `search`: threads the object through the
listing; an unreadable directory throws after its index entry was
already pushed, leaving the partially built stores behind
(`.error` carries the object at the point of the throw). -/
def searchE : MinuetWeb → FsT → String → Except MinuetWeb MinuetWeb
  | m, .nilE, _ => .ok m
  | m, .fileE name content rest, tp =>
    if hasMine m.mimes name then
      if content.length > m.bufferingMaxSize then searchE m rest tp
      else searchE (addBuffer m (tp ++ "/" ++ name) content) rest tp
    else searchE m rest tp
  | m, .dirE name children rest, tp =>
    let m1 := { m with directoryBuffers :=
      m.directoryBuffers ++ [dirKeyP m.rootDir.data.length (tp ++ "/" ++ name)] }
    match searchE m1 children (tp ++ "/" ++ name) with
    | .error m2 => .error m2
    | .ok m2 => searchE m2 rest tp
  | m, .badDirE name _, tp =>
    .error { m with directoryBuffers :=
      m.directoryBuffers ++ [dirKeyP m.rootDir.data.length (tp ++ "/" ++ name)] }

/-- `updateBuffer`: when buffering, reset both stores, walk the root
tree, then load the not-found page (when `notFound` is a string) and
the listing template (when `listNavigator` is set).  `nf` and `ln`
are what `readFileSync` yields for those two reads (`none` = throw).
`.error` carries the object with whatever state the aborted rebuild
left behind. -/
def updateBuffer (m : MinuetWeb) (tree : FsT) (nf ln : Option (List Nat)) :
    Except MinuetWeb MinuetWeb :=
  if m.buffering then
    match searchE { m with buffers := [], directoryBuffers := ["/"] } tree m.rootDir with
    | .error m1 => .error m1
    | .ok m1 =>
      match m1.notFound with
      | .ofStr _ =>
        match nf with
        | none => .error m1
        | some c =>
          let m2 := { m1 with buffers := objSet m1.buffers notFoundKey c }
          if m2.listNavigator then
            match ln with
            | none => .error m2
            | some c2 => .ok { m2 with buffers := objSet m2.buffers navKey c2 }
          else .ok m2
      | .ofBool _ =>
        if m1.listNavigator then
          match ln with
          | none => .error m1
          | some c2 => .ok { m1 with buffers := objSet m1.buffers navKey c2 }
        else .ok m1
  else .ok m

/-! ## Request handling -/

/-- `readFile`: from the buffer when buffering (may yield nothing),
else from disk (`.error` models a `readFileSync` throw). -/
def readFile (m : MinuetWeb) (world : FsT) (targetPath : String) :
    Except Unit (Option (List Nat)) :=
  if m.buffering then .ok (objGet m.buffers targetPath)
  else
    match fsReadFile world (collapseDS (m.rootDir ++ "/" ++ targetPath)) with
    | some c => .ok (some c)
    | none => .error ()

/-- A chunk passed to `res.write`: a buffer, a string, or the
JS `undefined` a failed buffer lookup produces. -/
inductive Chunk where
  | bytes (b : List Nat)
  | str (s : String)
  | jsUndefined
deriving DecidableEq

def chunkOf : Option (List Nat) → Chunk
  | some b => .bytes b
  | none => .jsUndefined

/-- The response sink: status, materialized headers, written chunks,
and whether `end` was called.  `statusCode` starts at Node's
default `200`. -/
structure ServerRes where
  statusCode : Nat := 200
  headersOut : List (String × String) := []
  body : List Chunk := []
  ended : Bool := false
deriving DecidableEq

/-- `setHeader` applied to every configured header; `none` models
the throw Node raises on an `undefined` header value. -/
def setHeaderAll (res : ServerRes) : List (String × Option String) → Option ServerRes
  | [] => some res
  | (n, some v) :: rest =>
    setHeaderAll { res with headersOut := objSet res.headersOut n v } rest
  | (_, none) :: _ => none

/-- The `error` method (404 handling); returns the response state
and the boolean `listen` result, or `none` when reading the 404 page
throws. -/
def errorRes (m : MinuetWeb) (world : FsT) (res : ServerRes) :
    Option (ServerRes × Bool) :=
  match m.notFound with
  | .ofBool b =>
    if b then some ({ res with statusCode := 404, ended := true }, true)
    else some (res, false)
  | .ofStr s =>
    let nfPath := if m.buffering then notFoundKey else s
    match readFile m world nfPath with
    | .error _ => none
    | .ok c =>
      some ({ res with statusCode := 404, body := res.body ++ [chunkOf c], ended := true }, true)

/-- The per-candidate test of `getUrl`'s loop: filesystem probe when
`directReading`, else Asset Store membership. -/
def candMatches (m : MinuetWeb) (world : FsT) (c : String) : Bool :=
  if m.directReading then existsSync world (m.rootDir ++ "/" ++ c)
  else (objGet m.buffers c).isSome

/-- The decision loop of `getUrl`: first matching candidate wins. -/
def getUrlLoop (m : MinuetWeb) (world : FsT) : List String → Option String
  | [] => none
  | c :: rest =>
    if candMatches m world c then some c else getUrlLoop m world rest

/-- `getUrl`: strip the query, build the candidate list (the bare
path, then one collapsed `url + "/" + index` per configured
directory index), and return the first match. -/
def getUrl (m : MinuetWeb) (world : FsT) (baseUrl : String) : Option String :=
  let url := stripQuery baseUrl
  getUrlLoop m world
    (url :: m.directoryIndexs.map (fun idx => collapseDS (url ++ "/" ++ idx)))

/-- The directory-children loop of `getDirectories` over the
Directory Index. -/
def dirLoop (url : String) : List String → List String
  | [] => []
  | dir :: rest =>
    if leadsWithS url dir && dir != url then
      if (jsSplitL ['/'] (dir.data.drop url.data.length)).length = 2 then
        dir :: dirLoop url rest
      else dirLoop url rest
    else dirLoop url rest

/-- The file-children loop of `getDirectories` over the Asset Store keys. -/
def fileLoop (url : String) : List String → List String
  | [] => []
  | file :: rest =>
    if leadsWithS url file then
      if (jsSplitL ['/'] (file.data.drop url.data.length)).length = 2 then
        file :: fileLoop url rest
      else fileLoop url rest
    else fileLoop url rest

/-- `getDirectories`: immediate children of `url` (directories first,
then buffered files); empty when buffering is off. -/
def getDirectories (m : MinuetWeb) (url : String) : List String :=
  if m.buffering then
    dirLoop url m.directoryBuffers ++ fileLoop url (objKeys m.buffers)
  else []

/-- Trailing-slash trimming of the navigator's request path. -/
def trimSlash (s : String) : String :=
  if s.data.getLast? = some '/' then strOf s.data.dropLast else s

/-- One `<tr>` row of the listing page. -/
def rowFor (l : String) : String :=
  "<tr><td>-</td><td><a href=\"" ++ l ++ "\">" ++ jsBasename l ++ "</a></td></tr>"

/-- The concatenated listing rows, in `getDirectories` order. -/
def rowsOf : List String → String
  | [] => ""
  | l :: rest => rowFor l ++ rowsOf rest

/-- `isDirectory`: the navigator.  `nowStr` is the formatted clock
reading used in the `{comment}` substitution.  `none` models the
throw when the listing template is absent from the buffer. -/
def isDirectory (m : MinuetWeb) (reqUrl : String) (res : ServerRes)
    (nowStr : String) : Option (ServerRes × Bool) :=
  let url := trimSlash (stripQuery reqUrl)
  if m.buffering then
    if !(m.directoryBuffers.contains url) then some (res, false)
    else
      match objGet m.buffers navKey with
      | none => none
      | some tb =>
        let c0 := bufToString tb
        let c1 := jsReplaceAll "{url}" url c0
        let c2 := jsReplaceAll "{back}" (jsDirname url) c1
        let c3 := jsReplaceAll "{lists}" (rowsOf (getDirectories m url)) c2
        let c4 := jsReplaceAll "{comment}" ("Minuet Server | " ++ nowStr) c3
        some ({ res with body := res.body ++ [Chunk.str c4], ended := true }, true)
  else some (res, true)

/-- `listen`: resolve, then serve the content, the navigator page, or
the not-found policy.  Returns the (possibly mutated) object, the
response state and the boolean result; `none` models a thrown
exception. -/
def listen (m : MinuetWeb) (world : FsT) (reqUrl : String) (res : ServerRes)
    (nowStr : String) : Option (MinuetWeb × ServerRes × Bool) :=
  let url0 := stripQuery reqUrl
  let miss : Option (MinuetWeb × ServerRes × Bool) :=
    if m.listNavigator then
      match isDirectory m reqUrl res nowStr with
      | none => none
      | some (res1, true) => some (m, res1, true)
      | some (res1, false) =>
        (errorRes m world res1).map (fun rb => (m, rb.1, rb.2))
    else (errorRes m world res).map (fun rb => (m, rb.1, rb.2))
  match getUrl m world url0 with
  | none => miss
  | some u =>
    if u = "" then miss
    else
      match readFile m world u with
      | .error _ => none
      | .ok content =>
        let m' := { m with headers := objSet m.headers "content-type" (getMime m.mimes u) }
        match setHeaderAll { res with statusCode := 200 } m'.headers with
        | none => none
        | some res2 =>
          some (m', { res2 with body := res2.body ++ [chunkOf content], ended := true }, true)

end MinuetWebModel

namespace MinuetWebModel

/-! ## Specification-side definitions

These follow the wording of the specification / claims; the theorems
below compare them with the source-derived operations above. -/

/-- The claim's literal candidate list: the stripped path itself,
followed by `stripped ++ "/" ++ candidate` for each configured
directory index, in order (no double-slash collapsing). -/
def claimCandidates (m : MinuetWeb) (rawPath : String) : List String :=
  let url := stripQuery rawPath
  url :: m.directoryIndexs.map (fun idx => url ++ "/" ++ idx)

/-- Resolution as the claim words it: first member of the literal
candidate list that matches, candidates tried strictly in order. -/
def claimResolve (m : MinuetWeb) (world : FsT) (rawPath : String) : Option String :=
  (claimCandidates m rawPath).find? (candMatches m world)

/-- The amended candidate list: as the claim's, but each
directory-index candidate is `(stripped ++ "/" ++ idx)` with double
slashes collapsed, which is what the source builds. -/
def amendedCandidates (m : MinuetWeb) (rawPath : String) : List String :=
  let url := stripQuery rawPath
  url :: m.directoryIndexs.map (fun idx => collapseDS (url ++ "/" ++ idx))

/-- Content of a directory-entry chain walk, per the spec of the
build phase: the `(filePath, content)` pairs of the files the walk
buffers (MIME-allowed extension, size within the ceiling), in walk
order. -/
def walkRecs (mimes : List (String × String)) (maxSize : Nat) :
    FsT → String → List (String × List Nat)
  | .nilE, _ => []
  | .fileE n c r, tp =>
    if hasMine mimes n = true ∧ ¬ c.length > maxSize then
      (tp ++ "/" ++ n, c) :: walkRecs mimes maxSize r tp
    else walkRecs mimes maxSize r tp
  | .dirE n ch r, tp =>
    walkRecs mimes maxSize ch (tp ++ "/" ++ n) ++ walkRecs mimes maxSize r tp
  | .badDirE _ r, tp => walkRecs mimes maxSize r tp

/-- The Directory Index entries of a full walk: one normalized key
per subdirectory encountered, in walk order. -/
def walkDirs (rootLen : Nat) : FsT → String → List String
  | .nilE, _ => []
  | .fileE _ _ r, tp => walkDirs rootLen r tp
  | .dirE n ch r, tp =>
    dirKeyP rootLen (tp ++ "/" ++ n) ::
      (walkDirs rootLen ch (tp ++ "/" ++ n) ++ walkDirs rootLen r tp)
  | .badDirE n r, tp => dirKeyP rootLen (tp ++ "/" ++ n) :: walkDirs rootLen r tp

/-- The Asset Store contents a successful walk of `tree` produces,
starting from the empty store. -/
def walkBuf (m : MinuetWeb) (tree : FsT) : List (String × List Nat) :=
  (walkRecs m.mimes m.bufferingMaxSize tree m.rootDir).foldl
    (fun b r => objSet b (bufKeyP m.url m.rootDir.data.length r.1) r.2) []

/-- Segment list joined with `/` (no leading or trailing slash). -/
def joinSegs : List String → String
  | [] => ""
  | [s] => s
  | s :: rest => s ++ "/" ++ joinSegs rest

/-- The walk's file path for the file at `segs` below `tp`. -/
def pathOfSegs (tp : String) (segs : List String) : String :=
  tp ++ "/" ++ joinSegs segs

/-- The public path of the file at `segs` under the root, per the
spec: the URL prefix plus the root-relative path, double slashes
collapsed. -/
def pubKey (url : String) (segs : List String) : String :=
  collapseDS (url ++ "/" ++ joinSegs segs)

/-- A directory-entry name as a real filesystem produces it:
nonempty, no slash. -/
def validName (n : String) : Bool := !n.data.isEmpty && decide ('/' ∉ n.data)

/-- No duplicated sibling names. -/
def namesDistinct : List String → Bool
  | [] => true
  | x :: r => !(r.contains x) && namesDistinct r

/-- Names of a directory-entry chain, in listing order. -/
def namesOf : FsT → List String
  | .nilE => []
  | .fileE n _ r => n :: namesOf r
  | .dirE n _ r => n :: namesOf r
  | .badDirE n r => n :: namesOf r

/-- Entry names are valid and sibling names are distinct at every
level below this chain (the chain's own top-level distinctness is
checked by `wfT`). -/
def wfChain : FsT → Bool
  | .nilE => true
  | .fileE n _ r => validName n && wfChain r
  | .dirE n ch r => validName n && namesDistinct (namesOf ch) && wfChain ch && wfChain r
  | .badDirE n r => validName n && wfChain r

/-- Well-formedness of a directory tree as a real filesystem
guarantees it. -/
def wfT (t : FsT) : Bool := namesDistinct (namesOf t) && wfChain t

/-- No two consecutive slashes. -/
def noDS : List Char → Bool
  | [] => true
  | [_] => true
  | a :: b :: r => !(a == '/' && b == '/') && noDS (b :: r)

/-- A reasonable URL prefix: starts with `/` and has no double
slash (the default `"/"` qualifies). -/
def urlOk (u : String) : Bool := (u.data.head? == some '/') && noDS u.data

/-- The object state an `Except`-returning operation leaves behind
(on a throw, the state at the point of the throw). -/
def exceptState : Except MinuetWeb MinuetWeb → MinuetWeb
  | .ok x => x
  | .error x => x

/-! ## Basic lemmas about the JS object model -/

theorem objGet_objSet_self {α : Type} (b : List (String × α)) (k : String) (v : α) :
    objGet (objSet b k v) k = some v := by
  induction b with
  | nil => simp [objGet, objSet]
  | cons kv rest ih =>
    by_cases h : kv.1 = k
    · simp [objGet, objSet, h]
    · simp [objGet, objSet, h, ih]

theorem objGet_objSet_ne {α : Type} (b : List (String × α)) (k k' : String) (v : α)
    (h : k ≠ k') : objGet (objSet b k' v) k = objGet b k := by
  induction b with
  | nil =>
    have hne : ¬ k' = k := fun hh => h hh.symm
    simp [objGet, objSet, hne]
  | cons kv rest ih =>
    rcases kv with ⟨k0, v0⟩
    by_cases h1 : k0 = k'
    · subst h1
      have hne : ¬ k0 = k := fun hh => h hh.symm
      simp [objGet, objSet, hne]
    · simp [objGet, objSet, h1, ih]

end MinuetWebModel

namespace MinuetWebModel

/-! ## Claim C1: candidate construction and ordering of `getUrl` -/

theorem getUrlLoop_eq_find (m : MinuetWeb) (world : FsT) (l : List String) :
    getUrlLoop m world l = l.find? (candMatches m world) := by
  induction l with
  | nil => rfl
  | cons c rest ih =>
    by_cases h : candMatches m world c = true
    · simp [getUrlLoop, List.find?, h]
    · have h' : candMatches m world c = false := by
        cases hc : candMatches m world c
        · rfl
        · exact absurd hc h
      simp [getUrlLoop, List.find?, h', ih]

/-- Config for the C1 counterexample: one buffered index file and one
configured directory index. -/
def cfgC1 : MinuetWeb :=
  { buffers := [("/docs/index.html", [42])], directoryIndexs := ["index.html"] }

/-- C1 is false as stated: for the raw path `"/docs/"`, the source
resolves to `"/docs/index.html"`, which is not a member of the
claim's literal candidate list `stripped :: stripped ++ "/" ++ idx`
(that list is `["/docs/", "/docs//index.html"]` and matches nothing):
the source collapses double slashes in the index candidates. -/
theorem getUrl_literal_candidates_cex :
    getUrl cfgC1 .nilE "/docs/" = some "/docs/index.html" ∧
    claimResolve cfgC1 .nilE "/docs/" = none ∧
    claimCandidates cfgC1 "/docs/" = ["/docs/", "/docs//index.html"] :=
  ⟨rfl, rfl, rfl⟩

/-- C1 (amended): resolution strips the query component and returns
the first matching member of the candidate list consisting of the
stripped path itself followed by, for each entry of
`directoryIndexs` in configured order, `stripped ++ "/" ++ entry`
with double slashes collapsed; the bare path is always tried before
any directory-index substitution and candidates are tried strictly
in list order with no scoring. -/
theorem getUrl_first_match_amended (m : MinuetWeb) (world : FsT) (rawPath : String) :
    getUrl m world rawPath = (amendedCandidates m rawPath).find? (candMatches m world) := by
  simp [getUrl, amendedCandidates, getUrlLoop_eq_find]

/-! ## Claim C4: which store resolution consults -/

/-- Config for the C4 counterexample: buffering and direct reading
both enabled, `/a.html` buffered but absent from the (empty) disk. -/
def cfgC4 : MinuetWeb := { buffers := [("/a.html", [1])], directReading := true }

/-- C4 is false as stated: with buffering enabled and `directReading`
enabled, a candidate present in the Asset Store does not resolve —
`getUrl` probes only the filesystem and never checks the store. -/
theorem getUrl_cache_first_cex :
    cfgC4.buffering = true ∧ cfgC4.directReading = true ∧
    objGet cfgC4.buffers "/a.html" = some [1] ∧
    getUrl cfgC4 .nilE "/a.html" = none :=
  ⟨rfl, rfl, rfl, rfl⟩

theorem candMatches_buffers_irrel (m : MinuetWeb) (world : FsT)
    (b' : List (String × List Nat)) (c : String) (h : m.directReading = true) :
    candMatches { m with buffers := b' } world c = candMatches m world c := by
  rcases m with ⟨u, rd, mi, hd, bu, bm, dr, nfo, di, ln2, bf, db⟩
  cases h
  rfl

theorem candMatches_world_irrel (m : MinuetWeb) (world world' : FsT)
    (c : String) (h : m.directReading = false) :
    candMatches m world' c = candMatches m world c := by
  rcases m with ⟨u, rd, mi, hd, bu, bm, dr, nfo, di, ln2, bf, db⟩
  cases h
  rfl

/-- C4 (amended): per candidate, resolution consults exactly one
source depending on the mode: when `directReading` is enabled, only
the filesystem is probed, so the result is independent of the Asset
Store (a candidate present only in the store does not resolve from
it); when `directReading` is disabled, only the Asset Store is
checked, so the result is independent of the filesystem. -/
theorem getUrl_single_source (m : MinuetWeb) (world world' : FsT)
    (b' : List (String × List Nat)) (rawPath : String) :
    (m.directReading = true →
      getUrl { m with buffers := b' } world rawPath = getUrl m world rawPath) ∧
    (m.directReading = false →
      getUrl m world' rawPath = getUrl m world rawPath) := by
  constructor
  · intro h
    have hloop : ∀ l : List String,
        getUrlLoop { m with buffers := b' } world l = getUrlLoop m world l := by
      intro l
      induction l with
      | nil => rfl
      | cons c rest ih =>
        simp only [getUrlLoop, candMatches_buffers_irrel m world b' c h, ih]
    exact hloop _
  · intro h
    have hloop : ∀ l : List String,
        getUrlLoop m world' l = getUrlLoop m world l := by
      intro l
      induction l with
      | nil => rfl
      | cons c rest ih =>
        simp only [getUrlLoop, candMatches_world_irrel m world world' c h, ih]
    exact hloop _

end MinuetWebModel

namespace MinuetWebModel

theorem getUrl_single_source_witness :
    getUrl { cfgC4 with buffers := [] } .nilE "/a.html" = getUrl cfgC4 .nilE "/a.html" :=
  (getUrl_single_source cfgC4 .nilE .nilE [] "/a.html").1 rfl

/-! ## Claim C5: rebuild atomicity -/

/-- Prior state for the C5 counterexample: an installed store and index. -/
def cfgC5 : MinuetWeb := { buffers := [("/old.html", [9])], directoryBuffers := ["/", "/old"] }

/-- Tree for the C5 counterexample: one eligible file, then an
unreadable directory that aborts the walk. -/
def treeC5 : FsT := .fileE "a.txt" [1] (.badDirE "locked" .nilE)

/-- C5 is false as stated: the aborted rebuild leaves a partial,
half-built Asset Store and Directory Index installed (the file walked
before the failure, and the failed directory's index entry), and the
previously installed contents are gone. -/
theorem updateBuffer_atomicity_cex :
    (updateBuffer cfgC5 treeC5 none none).isOk = false ∧
    (exceptState (updateBuffer cfgC5 treeC5 none none)).buffers = [("/a.txt", [1])] ∧
    (exceptState (updateBuffer cfgC5 treeC5 none none)).directoryBuffers = ["/", "/locked"] ∧
    (exceptState (updateBuffer cfgC5 treeC5 none none)).buffers ≠ cfgC5.buffers :=
  ⟨rfl, rfl, rfl, by decide⟩

/-- C5 (amended): a rebuild is not atomic with respect to failure;
instead it unconditionally discards the previously installed Asset
Store and Directory Index before walking, so its entire outcome
(including the partial state an aborted walk leaves behind) is
independent of the prior contents of those two structures. -/
theorem updateBuffer_discards_prior (m : MinuetWeb) (tree : FsT)
    (nf ln : Option (List Nat)) (b' : List (String × List Nat)) (d' : List String)
    (hb : m.buffering = true) :
    updateBuffer { m with buffers := b', directoryBuffers := d' } tree nf ln =
      updateBuffer m tree nf ln := by
  rcases m with ⟨u, rd, mi, hd, bu, bm, dr, nfo, di, ln2, bf, db⟩
  cases hb
  rfl

theorem updateBuffer_discards_prior_witness :
    updateBuffer { cfgC5 with buffers := [("/z", [1])], directoryBuffers := ["/", "/z"] }
        .nilE none none =
      updateBuffer cfgC5 .nilE none none :=
  updateBuffer_discards_prior cfgC5 .nilE none none [("/z", [1])] ["/", "/z"] rfl

/-! ## Claim C9: statelessness of `listen` -/

/-- Config for the C9 counterexample: one buffered page, no
configured headers. -/
def cfgC9 : MinuetWeb := { buffers := [("/a.html", [7])] }

/-- C9 is false as stated: a successful `listen` writes the resolved
MIME into the configuration's `headers` mapping (the
`headers["content-type"] = getMime(url)` side channel), so the
headers mapping does not stay unchanged. -/
theorem listen_stateless_cex :
    listen cfgC9 .nilE "/a.html" {} "now" =
      some ({ cfgC9 with headers := [("content-type", some "text/html")] },
        { statusCode := 200, headersOut := [("content-type", "text/html")],
          body := [Chunk.bytes [7]], ended := true }, true) ∧
    ({ cfgC9 with headers := [("content-type", some "text/html")] } : MinuetWeb).headers ≠
      cfgC9.headers :=
  ⟨rfl, by decide⟩

/-- C9 (amended): `listen` leaves the Asset Store, the Directory
Index and every configuration field unchanged except the headers
mapping: on a miss the headers are untouched, and on a resolved
request the mapping is updated at the `content-type` key with the
resolved candidate's MIME value. -/
theorem listen_frame (m : MinuetWeb) (world : FsT) (reqUrl : String) (res : ServerRes)
    (nowStr : String) (m' : MinuetWeb) (res' : ServerRes) (b : Bool)
    (h : listen m world reqUrl res nowStr = some (m', res', b)) :
    m'.buffers = m.buffers ∧ m'.directoryBuffers = m.directoryBuffers ∧
    m'.url = m.url ∧ m'.rootDir = m.rootDir ∧ m'.mimes = m.mimes ∧
    m'.buffering = m.buffering ∧ m'.bufferingMaxSize = m.bufferingMaxSize ∧
    m'.directReading = m.directReading ∧ m'.notFound = m.notFound ∧
    m'.directoryIndexs = m.directoryIndexs ∧ m'.listNavigator = m.listNavigator ∧
    ((∃ u, getUrl m world (stripQuery reqUrl) = some u ∧ u ≠ "" ∧
        m'.headers = objSet m.headers "content-type" (getMime m.mimes u)) ∨
      m'.headers = m.headers) := by
  have hmiss : ∀ x : Option (ServerRes × Bool),
      x.map (fun rb => (m, rb.1, rb.2)) = some (m', res', b) → m' = m := by
    intro x hx
    cases x with
    | none => exact absurd hx (by simp)
    | some rb =>
      have hx' : (m, rb.1, rb.2) = (m', res', b) := Option.some.inj hx
      exact (congrArg Prod.fst hx').symm
  have hM : m' = m ∨ (∃ u, getUrl m world (stripQuery reqUrl) = some u ∧ u ≠ "" ∧
      m' = { m with headers := objSet m.headers "content-type" (getMime m.mimes u) }) := by
    cases hg : getUrl m world (stripQuery reqUrl) with
    | none =>
      simp only [listen, hg] at h
      by_cases hnav : m.listNavigator = true
      · rw [if_pos hnav] at h
        cases hd : isDirectory m reqUrl res nowStr with
        | none =>
          simp only [hd] at h
          exact Option.noConfusion h
        | some rb =>
          rcases rb with ⟨res1, b1⟩
          simp only [hd] at h
          cases b1 with
          | true =>
            have hx' : (m, res1, true) = (m', res', b) := Option.some.inj h
            exact Or.inl (congrArg Prod.fst hx').symm
          | false => exact Or.inl (hmiss _ h)
      · rw [if_neg hnav] at h
        exact Or.inl (hmiss _ h)
    | some u =>
      simp only [listen, hg] at h
      by_cases hu : u = ""
      · rw [if_pos hu] at h
        by_cases hnav : m.listNavigator = true
        · rw [if_pos hnav] at h
          cases hd : isDirectory m reqUrl res nowStr with
          | none =>
            simp only [hd] at h
            exact Option.noConfusion h
          | some rb =>
            rcases rb with ⟨res1, b1⟩
            simp only [hd] at h
            cases b1 with
            | true =>
              have hx' : (m, res1, true) = (m', res', b) := Option.some.inj h
              exact Or.inl (congrArg Prod.fst hx').symm
            | false => exact Or.inl (hmiss _ h)
        · rw [if_neg hnav] at h
          exact Or.inl (hmiss _ h)
      · rw [if_neg hu] at h
        cases hr : readFile m world u with
        | error e =>
          simp only [hr] at h
          exact Option.noConfusion h
        | ok content =>
          simp only [hr] at h
          cases hs : setHeaderAll { res with statusCode := 200 }
              (objSet m.headers "content-type" (getMime m.mimes u)) with
          | none =>
            simp only [hs] at h
            exact Option.noConfusion h
          | some res2 =>
            simp only [hs] at h
            have hx' : ({ m with headers := objSet m.headers "content-type" (getMime m.mimes u) },
                { res2 with body := res2.body ++ [chunkOf content], ended := true }, true) =
                (m', res', b) := Option.some.inj h
            exact Or.inr ⟨u, rfl, hu, (congrArg Prod.fst hx').symm⟩
  rcases hM with hM | ⟨u, hg, hu, hM⟩
  · subst hM
    exact ⟨rfl, rfl, rfl, rfl, rfl, rfl, rfl, rfl, rfl, rfl, rfl, Or.inr rfl⟩
  · subst hM
    exact ⟨rfl, rfl, rfl, rfl, rfl, rfl, rfl, rfl, rfl, rfl, rfl, Or.inl ⟨u, hg, hu, rfl⟩⟩

theorem listen_frame_witness :
    ({ cfgC9 with headers := [("content-type", some "text/html")] } : MinuetWeb).buffers =
      cfgC9.buffers :=
  (listen_frame cfgC9 .nilE "/a.html" {} "now"
    { cfgC9 with headers := [("content-type", some "text/html")] }
    { statusCode := 200, headersOut := [("content-type", "text/html")],
      body := [Chunk.bytes [7]], ended := true } true rfl).1

end MinuetWebModel

namespace MinuetWebModel

/-! ## Claim C3: the not-found policy -/

/-- C3: when resolution misses and the navigator does not apply, the
not-found policy is a three-way case split: `notFound = false`
returns `false` with the response untouched; `notFound = true` sets
status 404, ends with an empty body and returns `true`; a string
`notFound` with buffering enabled sets status 404, writes exactly the
buffered content held under the reserved not-found key, ends and
returns `true`. -/
theorem listen_notfound_policy (m : MinuetWeb) (world : FsT) (reqUrl : String)
    (res : ServerRes) (nowStr : String)
    (hmiss : getUrl m world (stripQuery reqUrl) = none ∨
      getUrl m world (stripQuery reqUrl) = some "")
    (hnav : m.listNavigator = false ∨
      (m.buffering = true ∧
        m.directoryBuffers.contains (trimSlash (stripQuery reqUrl)) = false)) :
    (m.notFound = .ofBool false →
      listen m world reqUrl res nowStr = some (m, res, false)) ∧
    (m.notFound = .ofBool true →
      listen m world reqUrl res nowStr =
        some (m, { res with statusCode := 404, ended := true }, true)) ∧
    (∀ s c, m.notFound = .ofStr s → m.buffering = true →
      objGet m.buffers notFoundKey = some c →
      listen m world reqUrl res nowStr =
        some (m, { res with statusCode := 404, body := res.body ++ [Chunk.bytes c], ended := true }, true)) := by
  have hdir : m.listNavigator = true →
      isDirectory m reqUrl res nowStr = some (res, false) := by
    intro hn
    rcases hnav with hnav | ⟨hb2, hnc⟩
    · rw [hnav] at hn
      exact absurd hn (by simp)
    · simp only [isDirectory]
      rw [hb2, hnc]
      rfl
  have hlisten : listen m world reqUrl res nowStr =
      (errorRes m world res).map (fun rb => (m, rb.1, rb.2)) := by
    have hafter : (if m.listNavigator = true then
        match isDirectory m reqUrl res nowStr with
        | none => none
        | some (res1, true) => some (m, res1, true)
        | some (res1, false) => (errorRes m world res1).map (fun rb => (m, rb.1, rb.2))
      else (errorRes m world res).map (fun rb => (m, rb.1, rb.2))) =
        (errorRes m world res).map (fun rb => (m, rb.1, rb.2)) := by
      by_cases hn : m.listNavigator = true
      · rw [if_pos hn, hdir hn]
      · rw [if_neg hn]
    rcases hmiss with hg | hg
    · simp only [listen, hg]
      exact hafter
    · simp only [listen, hg]
      exact hafter
  refine ⟨?_, ?_, ?_⟩
  · intro hnf
    rw [hlisten]
    simp [errorRes, hnf]
  · intro hnf
    rw [hlisten]
    simp [errorRes, hnf]
  · intro s c hnf hb2 hc
    rw [hlisten]
    simp [errorRes, hnf, readFile, hb2, hc, chunkOf]

/-- Config for the C3 witness: string not-found page, buffering on. -/
def cfgC3 : MinuetWeb :=
  { notFound := .ofStr "error.html", buffers := [("#notfound", [5, 6])] }

theorem listen_notfound_policy_witness :
    listen cfgC3 .nilE "/missing.png" {} "t" =
      some (cfgC3, { statusCode := 404, headersOut := [], body := [Chunk.bytes [5, 6]], ended := true }, true) :=
  (listen_notfound_policy cfgC3 .nilE "/missing.png" {} "t"
      (Or.inl rfl) (Or.inl rfl)).2.2 "error.html" [5, 6] rfl rfl rfl

/-! ## Claim C10: directReading resolves from disk but reads the buffer -/

theorem objSet_all_some (hs : List (String × Option String)) (k : String) (v0 : String)
    (h : ∀ kv ∈ hs, kv.2 ≠ none) : ∀ kv ∈ objSet hs k (some v0), kv.2 ≠ none := by
  induction hs with
  | nil =>
    intro kv hkv
    simp only [objSet, List.mem_singleton] at hkv
    subst hkv
    simp
  | cons kv0 rest ih =>
    intro kv hkv
    by_cases h1 : kv0.1 = k
    · rcases kv0 with ⟨k0, w0⟩
      simp only [objSet] at hkv
      rw [if_pos h1] at hkv
      rcases List.mem_cons.mp hkv with hkv | hkv
      · subst hkv; simp
      · exact h kv (List.mem_cons_of_mem _ hkv)
    · rcases kv0 with ⟨k0, w0⟩
      simp only [objSet] at hkv
      rw [if_neg h1] at hkv
      rcases List.mem_cons.mp hkv with hkv | hkv
      · subst hkv
        exact h (k0, w0) (by simp)
      · exact ih (fun kv h2 => h kv (List.mem_cons_of_mem _ h2)) kv hkv

theorem setHeaderAll_total (hs : List (String × Option String)) :
    ∀ res : ServerRes, (∀ kv ∈ hs, kv.2 ≠ none) →
      ∃ r', setHeaderAll res hs = some r' ∧ r'.statusCode = res.statusCode ∧
        r'.body = res.body ∧ r'.ended = res.ended := by
  induction hs with
  | nil => exact fun res _ => ⟨res, rfl, rfl, rfl, rfl⟩
  | cons kv rest ih =>
    intro res h
    rcases kv with ⟨n, v⟩
    cases v with
    | none => exact absurd rfl (h (n, none) (by simp))
    | some v0 =>
      obtain ⟨r', hr', h1, h2, h3⟩ :=
        ih { res with headersOut := objSet res.headersOut n v0 }
          (fun kv hkv => h kv (List.mem_cons_of_mem _ hkv))
      exact ⟨r', hr', h1, h2, h3⟩

/-- C10: with buffering and directReading both enabled, a request
path that exists on disk under the root but is not a key of the
Asset Store resolves via the filesystem probe, yet the content load
consults only the in-memory buffer, which yields no value, so the
chunk written to the response is the undefined lookup result and not
the file's bytes. -/
theorem direct_reading_buffer_mismatch (m : MinuetWeb) (world : FsT) (p : String)
    (res : ServerRes) (nowStr : String) (mt : String)
    (hb : m.buffering = true) (hdr : m.directReading = true)
    (hq : stripQuery p = p) (hne : p ≠ "")
    (hex : existsSync world (m.rootDir ++ "/" ++ p) = true)
    (hnb : objGet m.buffers p = none)
    (hmime : getMime m.mimes p = some mt)
    (hH : ∀ kv ∈ m.headers, kv.2 ≠ none) :
    getUrl m world p = some p ∧ readFile m world p = .ok none ∧
    ∃ m' res', listen m world p res nowStr = some (m', res', true) ∧
      res'.body = res.body ++ [Chunk.jsUndefined] := by
  have hcand : candMatches m world p = true := by
    simp [candMatches, hdr, hex]
  have hg : getUrl m world p = some p := by
    simp only [getUrl, hq, getUrlLoop, hcand, if_pos]
  have hrf : readFile m world p = .ok none := by
    simp [readFile, hb, hnb]
  refine ⟨hg, hrf, ?_⟩
  obtain ⟨r', hr', h1, h2, h3⟩ :=
    setHeaderAll_total (objSet m.headers "content-type" (getMime m.mimes p))
      { res with statusCode := 200 }
      (by rw [hmime]; exact objSet_all_some m.headers "content-type" mt hH)
  refine ⟨{ m with headers := objSet m.headers "content-type" (getMime m.mimes p) },
    { r' with body := r'.body ++ [chunkOf none], ended := true }, ?_, ?_⟩
  · simp only [listen, hq, hg]
    rw [if_neg hne, hrf]
    simp only [hr']
  · simp [h2, chunkOf]

/-- Config and world for the C10 witness: `/a.html` on disk, an
empty Asset Store. -/
def cfgC10 : MinuetWeb := { directReading := true }

def worldC10 : FsT := .dirE "htdocs" (.fileE "a.html" [7] .nilE) .nilE

theorem direct_reading_buffer_mismatch_witness :
    getUrl cfgC10 worldC10 "/a.html" = some "/a.html" ∧
    readFile cfgC10 worldC10 "/a.html" = .ok none ∧
    ∃ m' res', listen cfgC10 worldC10 "/a.html" {} "t" = some (m', res', true) ∧
      res'.body = ({} : ServerRes).body ++ [Chunk.jsUndefined] :=
  direct_reading_buffer_mismatch cfgC10 worldC10 "/a.html" {} "t" "text/html"
    rfl rfl rfl (by decide) rfl rfl rfl (by intro kv hkv; simp [cfgC10] at hkv)

end MinuetWebModel

namespace MinuetWebModel

/-! ## Claim C8: the navigator's immediate-children computation -/

/-- The claim's child filter: the entry starts with the directory
path and the remainder, split by `/`, has exactly one more segment
(split length two: the empty lead segment plus the child name). -/
def childFilterC8 (url entry : String) : Bool :=
  leadsWithS url entry &&
    decide ((jsSplitL ['/'] (entry.data.drop url.data.length)).length = 2)

theorem dirLoop_eq_filter (url : String) (l : List String) :
    dirLoop url l = l.filter (childFilterC8 url) := by
  induction l with
  | nil => rfl
  | cons dir rest ih =>
    by_cases h1 : leadsWithS url dir = true
    · by_cases h2 : dir = url
      · subst h2
        have hf : childFilterC8 dir dir = false := by
          unfold childFilterC8
          rw [List.drop_length]
          simp [jsSplitL, jsSplitAux]
        simp [dirLoop, List.filter_cons, hf, ih]
      · by_cases h3 : (jsSplitL ['/'] (dir.data.drop url.length)).length = 2
        · have hf : childFilterC8 url dir = true := by
            simp [childFilterC8, h1, h3]
          simp [dirLoop, List.filter_cons, h1, h2, h3, hf, ih]
        · have hf : childFilterC8 url dir = false := by
            simp [childFilterC8, h3]
          simp [dirLoop, List.filter_cons, h1, h2, h3, hf, ih]
    · have h1' : leadsWithS url dir = false := by
        cases hx : leadsWithS url dir
        · rfl
        · exact absurd hx h1
      have hf : childFilterC8 url dir = false := by
        simp [childFilterC8, h1']
      simp [dirLoop, List.filter_cons, h1', hf, ih]

theorem fileLoop_eq_filter (url : String) (l : List String) :
    fileLoop url l = l.filter (childFilterC8 url) := by
  induction l with
  | nil => rfl
  | cons file rest ih =>
    by_cases h1 : leadsWithS url file = true
    · by_cases h3 : (jsSplitL ['/'] (file.data.drop url.length)).length = 2
      · have hf : childFilterC8 url file = true := by
          simp [childFilterC8, h1, h3]
        simp [fileLoop, List.filter_cons, h1, h3, hf, ih]
      · have hf : childFilterC8 url file = false := by
          simp [childFilterC8, h3]
        simp [fileLoop, List.filter_cons, h1, h3, hf, ih]
    · have h1' : leadsWithS url file = false := by
        cases hx : leadsWithS url file
        · rfl
        · exact absurd hx h1
      have hf : childFilterC8 url file = false := by
        simp [childFilterC8, h1']
      simp [fileLoop, List.filter_cons, h1', hf, ih]

/-- Listing template for the C8 scenario (ASCII bytes of a page with
a `{lists}` slot). -/
def tmplC8 : List Nat := "<html>{lists}</html>".data.map Char.toNat

/-- The C8 scenario: navigator enabled, `/gallery` is a known
directory holding the buffered asset `/gallery/a.png`, the
subdirectory `/gallery/sub`, and the deeper asset
`/gallery/sub/deep.png`; no index candidate matches. -/
def cfgC8 : MinuetWeb := { listNavigator := true, directoryIndexs := ["index.html"], buffers := [("#listNavigator", tmplC8), ("/gallery/a.png", [1]), ("/gallery/sub/deep.png", [2])], directoryBuffers := ["/", "/gallery", "/gallery/sub"] }

/-- The rendered C8 page: one row per immediate child, directories
first, and no rows for deeper descendants. -/
def pageC8 : String := "<html>" ++ rowFor "/gallery/sub" ++ rowFor "/gallery/a.png" ++ "</html>"

/-- C8: children of a directory are computed by filtering the
Directory Index and the Asset Store keys for entries that start with
the directory path and whose remainder, split by `/`, has exactly
one more segment; in the `/gallery` scenario the navigator serves a
status-200 page whose body holds exactly one row for `sub` and one
for `a.png` and none for the deeper `sub/deep.png`. -/
theorem navigator_children :
    (∀ (m : MinuetWeb) (url : String), m.buffering = true →
      getDirectories m url =
        m.directoryBuffers.filter (childFilterC8 url) ++
        (objKeys m.buffers).filter (childFilterC8 url)) ∧
    getDirectories cfgC8 "/gallery" = ["/gallery/sub", "/gallery/a.png"] ∧
    listen cfgC8 .nilE "/gallery" {} "t" =
      some (cfgC8, { statusCode := 200, headersOut := [], body := [Chunk.str pageC8], ended := true }, true) := by
  refine ⟨?_, rfl, ?_⟩
  · intro m url hb
    simp [getDirectories, hb, dirLoop_eq_filter, fileLoop_eq_filter]
  · set_option maxRecDepth 10000 in rfl

theorem navigator_children_witness :
    getDirectories cfgC8 "/gallery" =
      cfgC8.directoryBuffers.filter (childFilterC8 "/gallery") ++
      (objKeys cfgC8.buffers).filter (childFilterC8 "/gallery") :=
  navigator_children.1 cfgC8 "/gallery" rfl

end MinuetWebModel

namespace MinuetWebModel

/-! ## String-level lemmas for the public-key computation -/

theorem strData_inj (a b : String) (h : a.data = b.data) : a = b := by
  cases a
  cases b
  exact congrArg String.mk h

theorem sdata_append (a b : String) : (a ++ b).data = a.data ++ b.data := by
  cases a; cases b; rfl

theorem noDS_tail (c : Char) (cs : List Char) (h : noDS (c :: cs) = true) :
    noDS cs = true := by
  cases cs with
  | nil => rfl
  | cons d r =>
    simp only [noDS, Bool.and_eq_true] at h
    exact h.2

theorem noDS_two (c d : Char) (r : List Char) (h : noDS (c :: d :: r) = true) :
    ¬ (c = '/' ∧ d = '/') := by
  simp only [noDS, Bool.and_eq_true, Bool.not_eq_true'] at h
  intro ⟨hc, hd⟩
  subst hc; subst hd
  simp at h

theorem noDS_of_noSlash : ∀ cs : List Char, (∀ c ∈ cs, c ≠ '/') → noDS cs = true := by
  intro cs
  induction cs with
  | nil => intro _; rfl
  | cons c rest ih =>
    intro h
    cases rest with
    | nil => rfl
    | cons d r =>
      have hc : c ≠ '/' := h c (by simp)
      have hr : noDS (d :: r) = true := ih (fun x hx => h x (List.mem_cons_of_mem _ hx))
      simp only [noDS, Bool.and_eq_true]
      refine ⟨?_, hr⟩
      simp [hc]

theorem noDS_append_left : ∀ (a b : List Char), noDS (a ++ b) = true → noDS a = true := by
  intro a
  induction a with
  | nil => intro b _; rfl
  | cons x a' ih =>
    intro b h
    cases a' with
    | nil => rfl
    | cons y a'' =>
      have h' : noDS (x :: y :: (a'' ++ b)) = true := h
      have h1 := noDS_two x y (a'' ++ b) h'
      have h2 : noDS ((y :: a'') ++ b) = true := noDS_tail x _ h'
      have h3 : noDS (y :: a'') = true := ih b h2
      cases hx : (x == '/' && y == '/') with
      | true =>
        simp only [Bool.and_eq_true, beq_iff_eq] at hx
        exact absurd hx h1
      | false =>
        simp only [noDS, hx, Bool.true_and, Bool.not_false]
        exact h3

theorem noDS_glue : ∀ (a b : List Char), noDS a = true → noDS b = true →
    (a.getLast? = some '/' → b.head? ≠ some '/') → noDS (a ++ b) = true := by
  intro a
  induction a with
  | nil => intro b _ hb _; exact hb
  | cons x a' ih =>
    intro b ha hb hj
    cases a' with
    | nil =>
      cases b with
      | nil => rfl
      | cons y r =>
        simp only [List.singleton_append, noDS, Bool.and_eq_true]
        constructor
        · by_cases hx : x = '/'
          · have hy : y ≠ '/' := by
              have := hj (by simp [hx])
              intro hy
              exact this (by simp [hy])
            simp [hy]
          · simp [hx]
        · exact hb
    | cons z a'' =>
      have h1 := noDS_two x z a'' ha
      have h2 : noDS ((z :: a'') ++ b) = true := by
        apply ih b (noDS_tail x _ ha) hb
        intro hl
        exact hj (by rw [List.getLast?_cons_cons]; exact hl)
      have hcl : (x == '/' && z == '/') = false := by
        cases hx : (x == '/' && z == '/') with
        | true =>
          simp only [Bool.and_eq_true, beq_iff_eq] at hx
          exact absurd hx h1
        | false => rfl
      simp only [List.cons_append, noDS, hcl, Bool.not_false, Bool.true_and]
      exact h2

theorem noDS_snoc_slash : ∀ a : List Char, noDS (a ++ ['/']) = true →
    a.getLast? ≠ some '/' := by
  intro a
  induction a with
  | nil => intro _; simp
  | cons x a' ih =>
    intro h
    cases a' with
    | nil =>
      have := noDS_two x '/' [] h
      simp only [List.getLast?_singleton, ne_eq, Option.some.injEq]
      intro hx
      exact this ⟨hx, rfl⟩
    | cons z a'' =>
      have h2 : noDS ((z :: a'') ++ ['/']) = true := noDS_tail x _ h
      have := ih h2
      rw [List.getLast?_cons_cons]
      exact this

end MinuetWebModel

namespace MinuetWebModel

theorem leadsWith_dslash (c : Char) (cs : List Char) :
    leadsWith ['/', '/'] (c :: cs) =
      (c == '/' && (cs.head?.map (fun d => d == '/')).getD false) := by
  cases cs with
  | nil =>
    simp [leadsWith]
  | cons d r =>
    simp only [leadsWith, List.head?_cons, Option.map_some, Option.getD_some]
    cases hc : ('/' == c) <;> cases hd : ('/' == d) <;>
      simp_all [BEq.comm]

theorem jsSplitAux_noDS : ∀ (fuel : Nat) (cs : List Char), cs.length ≤ fuel →
    noDS cs = true → jsSplitAux ['/', '/'] fuel cs = [cs] := by
  intro fuel
  induction fuel with
  | zero =>
    intro cs hl _
    have h0 : cs = [] := List.eq_nil_of_length_eq_zero (Nat.le_zero.mp hl)
    subst h0
    rfl
  | succ f ih =>
    intro cs hl hn
    cases cs with
    | nil => rfl
    | cons c cs' =>
      have hcond : leadsWith ['/', '/'] (c :: cs') = false := by
        rw [leadsWith_dslash]
        cases cs' with
        | nil => simp
        | cons d r =>
          by_cases hc : c = '/'
          · subst hc
            have hd : d ≠ '/' := by
              intro hd
              subst hd
              exact absurd (noDS_two '/' '/' r hn) (by simp)
            simp [hd]
          · simp [hc]
      have hrec := ih cs' (Nat.le_of_succ_le_succ hl) (noDS_tail c cs' hn)
      simp only [jsSplitAux, hcond, Bool.and_false, Bool.false_eq_true, if_false, hrec]

theorem jsSplitAux_junction : ∀ (a : List Char) (fuel : Nat) (t : List Char),
    (a ++ '/' :: '/' :: t).length ≤ fuel → noDS a = true →
    a.getLast? ≠ some '/' → noDS t = true → t.head? ≠ some '/' →
    jsSplitAux ['/', '/'] fuel (a ++ '/' :: '/' :: t) = [a, t] := by
  intro a
  induction a with
  | nil =>
    intro fuel t hl _ _ hnt hht
    cases fuel with
    | zero => simp at hl
    | succ f =>
      have hcond : leadsWith ['/', '/'] ('/' :: '/' :: t) = true := by
        simp [leadsWith]
      have hlt : t.length ≤ f := by
        simp only [List.nil_append, List.length_cons] at hl
        omega
      have hrec := jsSplitAux_noDS f t hlt hnt
      simp only [List.nil_append, jsSplitAux, hcond, Bool.and_true, List.isEmpty_cons,
        Bool.not_false, if_true, List.drop_succ_cons, List.drop_zero, List.drop]
      rw [hrec]
  | cons c a' ih =>
    intro fuel t hl hna hla hnt hht
    cases fuel with
    | zero => simp at hl
    | succ f =>
      have hcond : leadsWith ['/', '/'] (c :: (a' ++ '/' :: '/' :: t)) = false := by
        rw [leadsWith_dslash]
        by_cases hc : c = '/'
        · subst hc
          cases a' with
          | nil =>
            exact absurd (show (['/'] : List Char).getLast? = some '/' from rfl) hla
          | cons d a'' =>
            have hd : d ≠ '/' := by
              intro hd
              subst hd
              exact absurd (noDS_two '/' '/' a'' hna) (by simp)
            simp [hd]
        · simp [hc]
      have hla' : a'.getLast? ≠ some '/' := by
        cases a' with
        | nil => simp
        | cons d a'' =>
          rw [List.getLast?_cons_cons] at hla
          exact hla
      have hrec := ih f t (by simp only [List.cons_append, List.length_cons] at hl; omega)
        (noDS_tail c a' hna) hla' hnt hht
      rw [List.cons_append]
      simp only [jsSplitAux, hcond, Bool.and_false, Bool.false_eq_true, if_false, hrec]

theorem collapse_noDS (cs : List Char) (h : noDS cs = true) : collapseL cs = cs := by
  unfold collapseL jsSplitL
  rw [jsSplitAux_noDS cs.length cs (Nat.le_refl _) h]
  rfl

theorem collapse_junction (a t : List Char) (hna : noDS a = true)
    (hla : a.getLast? ≠ some '/') (hnt : noDS t = true) (hht : t.head? ≠ some '/') :
    collapseL (a ++ '/' :: '/' :: t) = a ++ '/' :: t := by
  unfold collapseL jsSplitL
  rw [jsSplitAux_junction a _ t (Nat.le_refl _) hna hla hnt hht]
  simp [joinL]

end MinuetWebModel

namespace MinuetWebModel

theorem strOf_data (cs : List Char) : (strOf cs).data = cs := rfl

theorem validName_neSlash (n : String) (h : validName n = true) : '/' ∉ n.data := by
  simp only [validName, Bool.and_eq_true, Bool.not_eq_true', decide_eq_true_eq] at h
  exact h.2

theorem validName_neNil (n : String) (h : validName n = true) : n.data ≠ [] := by
  simp only [validName, Bool.and_eq_true, Bool.not_eq_true', decide_eq_true_eq] at h
  intro h0
  rw [h0] at h
  simp at h

theorem getLast?_mem : ∀ (l : List Char) (a : Char), l.getLast? = some a → a ∈ l := by
  intro l
  induction l with
  | nil => intro a h; simp at h
  | cons c r ih =>
    intro a h
    cases r with
    | nil =>
      simp only [List.getLast?_singleton, Option.some.injEq] at h
      subst h
      exact List.mem_cons_self _ _
    | cons d r' =>
      rw [List.getLast?_cons_cons] at h
      exact List.mem_cons_of_mem _ (ih a h)

theorem getLast?_append_right : ∀ (l1 l2 : List Char), l2 ≠ [] →
    (l1 ++ l2).getLast? = l2.getLast? := by
  intro l1 l2 h2
  induction l1 with
  | nil => rfl
  | cons c l1' ih =>
    obtain ⟨e, t, het⟩ : ∃ e t, l1' ++ l2 = e :: t := by
      cases hx : l1' ++ l2 with
      | nil => exact absurd (List.append_eq_nil.mp hx).2 h2
      | cons e t => exact ⟨e, t, rfl⟩
    rw [List.cons_append, het, List.getLast?_cons_cons, ← het, ih]

theorem joinSegs_cons (s : String) (rest : List String) (h : rest ≠ []) :
    joinSegs (s :: rest) = s ++ "/" ++ joinSegs rest := by
  cases rest with
  | nil => exact absurd rfl h
  | cons a r => rfl

theorem slashSplit_inj : ∀ (a b suf1 suf2 : List Char), '/' ∉ a → '/' ∉ b →
    a ++ '/' :: suf1 = b ++ '/' :: suf2 → a = b ∧ suf1 = suf2 := by
  intro a
  induction a with
  | nil =>
    intro b suf1 suf2 _ hb h
    cases b with
    | nil => simpa using h
    | cons c b' =>
      simp only [List.nil_append, List.cons_append, List.cons.injEq] at h
      exact absurd (by rw [h.1]; exact List.mem_cons_self _ _) hb
  | cons x a' ih =>
    intro b suf1 suf2 ha hb h
    cases b with
    | nil =>
      simp only [List.cons_append, List.nil_append, List.cons.injEq] at h
      exact absurd (by rw [← h.1]; exact List.mem_cons_self _ _) ha
    | cons y b' =>
      simp only [List.cons_append, List.cons.injEq] at h
      obtain ⟨h1, h2⟩ := h
      obtain ⟨ha2, hb2⟩ := ih b' suf1 suf2 (fun hm => ha (List.mem_cons_of_mem _ hm))
        (fun hm => hb (List.mem_cons_of_mem _ hm)) h2
      exact ⟨by rw [h1, ha2], hb2⟩

theorem joinSegs_inj : ∀ (s1 s2 : List String), s1 ≠ [] → s2 ≠ [] →
    (∀ n ∈ s1, validName n = true) → (∀ n ∈ s2, validName n = true) →
    joinSegs s1 = joinSegs s2 → s1 = s2 := by
  intro s1
  induction s1 with
  | nil => intro s2 h; exact absurd rfl h
  | cons n1 r1 ih =>
    intro s2 _ h2ne hv1 hv2 heq
    cases s2 with
    | nil => exact absurd rfl h2ne
    | cons n2 r2 =>
      cases r1 with
      | nil =>
        cases r2 with
        | nil =>
          have : n1 = n2 := heq
          rw [this]
        | cons m2 r2' =>
          rw [joinSegs_cons n2 (m2 :: r2') (by simp)] at heq
          have hsl : '/' ∈ n1.data := by
            have : joinSegs [n1] = n1 := rfl
            rw [this] at heq
            rw [heq, sdata_append, sdata_append]
            simp
          exact absurd hsl (validName_neSlash n1 (hv1 n1 (by simp)))
      | cons m1 r1' =>
        cases r2 with
        | nil =>
          rw [joinSegs_cons n1 (m1 :: r1') (by simp)] at heq
          have hsl : '/' ∈ n2.data := by
            have : joinSegs [n2] = n2 := rfl
            rw [this] at heq
            rw [← heq, sdata_append, sdata_append]
            simp
          exact absurd hsl (validName_neSlash n2 (hv2 n2 (by simp)))
        | cons m2 r2' =>
          rw [joinSegs_cons n1 (m1 :: r1') (by simp),
            joinSegs_cons n2 (m2 :: r2') (by simp)] at heq
          have hd := congrArg String.data heq
          rw [sdata_append, sdata_append, sdata_append, sdata_append] at hd
          simp only [List.append_assoc, List.singleton_append] at hd
          obtain ⟨hseg, hsuf⟩ := slashSplit_inj n1.data n2.data _ _
            (validName_neSlash n1 (hv1 n1 (by simp)))
            (validName_neSlash n2 (hv2 n2 (by simp))) hd
          have hn : n1 = n2 := strData_inj _ _ hseg
          have hj : joinSegs (m1 :: r1') = joinSegs (m2 :: r2') := strData_inj _ _ hsuf
          have hr : (m1 :: r1') = (m2 :: r2') :=
            ih (m2 :: r2') (by simp) (by simp)
              (fun n hn2 => hv1 n (List.mem_cons_of_mem _ hn2))
              (fun n hn2 => hv2 n (List.mem_cons_of_mem _ hn2)) hj
          rw [hn, hr]

theorem joinSegs_props : ∀ (segs : List String), segs ≠ [] →
    (∀ n ∈ segs, validName n = true) →
    (joinSegs segs).data ≠ [] ∧ (joinSegs segs).data.head? ≠ some '/' ∧
    (joinSegs segs).data.getLast? ≠ some '/' ∧ noDS (joinSegs segs).data = true := by
  intro segs
  induction segs with
  | nil => intro h; exact absurd rfl h
  | cons n rest ih =>
    intro _ hv
    have hvn := hv n (by simp)
    have hnn := validName_neNil n hvn
    have hns := validName_neSlash n hvn
    cases rest with
    | nil =>
      have hj : joinSegs [n] = n := rfl
      rw [hj]
      refine ⟨hnn, ?_, ?_, noDS_of_noSlash _ (fun c hc hceq => hns (hceq ▸ hc))⟩
      · intro hh
        cases hx : n.data with
        | nil => exact hnn hx
        | cons c r =>
          rw [hx] at hh
          simp only [List.head?_cons, Option.some.injEq] at hh
          exact hns (by rw [hx, hh]; exact List.mem_cons_self _ _)
      · intro hh
        exact hns (getLast?_mem _ _ hh)
    | cons m rest' =>
      obtain ⟨hjne, hjh, hjl, hjn⟩ := ih (by simp)
        (fun x hx => hv x (List.mem_cons_of_mem _ hx))
      rw [joinSegs_cons n (m :: rest') (by simp)]
      have hdata : (n ++ "/" ++ joinSegs (m :: rest')).data =
          n.data ++ '/' :: (joinSegs (m :: rest')).data := by
        rw [sdata_append, sdata_append]
        simp [List.append_assoc]
      rw [hdata]
      have hsl : noDS ('/' :: (joinSegs (m :: rest')).data) = true := by
        cases hx : (joinSegs (m :: rest')).data with
        | nil => exact absurd hx hjne
        | cons c r =>
          have hc : c ≠ '/' := by
            intro hc
            exact hjh (by rw [hx, hc]; rfl)
          rw [hx] at hjn
          simp only [noDS, Bool.and_eq_true]
          refine ⟨by simp [hc], hjn⟩
      refine ⟨by simp, ?_, ?_, ?_⟩
      · intro hh
        cases hx : n.data with
        | nil => exact hnn hx
        | cons c r =>
          rw [hx, List.cons_append, List.head?_cons] at hh
          simp only [Option.some.injEq] at hh
          exact hns (by rw [hx, hh]; exact List.mem_cons_self _ _)
      · rw [getLast?_append_right _ _ (by simp)]
        cases hx : (joinSegs (m :: rest')).data with
        | nil => exact absurd hx hjne
        | cons c r =>
          rw [List.getLast?_cons_cons, ← hx]
          exact hjl
      · exact noDS_glue _ _ (noDS_of_noSlash _ (fun c hc hceq => hns (hceq ▸ hc))) hsl
          (fun hl => absurd (getLast?_mem _ _ hl) hns)

end MinuetWebModel

namespace MinuetWebModel

/-- The URL prefix with a trailing slash removed (the collapse of
`url ++ "/" ++ rel` merges the boundary slash with `rel`'s leading
one). -/
def normU (u : List Char) : List Char :=
  if u.getLast? = some '/' then u.dropLast else u

theorem urlOk_noDS (url : String) (hu : urlOk url = true) : noDS url.data = true := by
  simp only [urlOk, Bool.and_eq_true] at hu
  exact hu.2

theorem urlOk_head (url : String) (hu : urlOk url = true) :
    url.data.head? = some '/' := by
  simp only [urlOk, Bool.and_eq_true, beq_iff_eq] at hu
  exact hu.1

theorem pubKey_data (url : String) (segs : List String) (hu : urlOk url = true)
    (hne : segs ≠ []) (hv : ∀ n ∈ segs, validName n = true) :
    (pubKey url segs).data = normU url.data ++ '/' :: (joinSegs segs).data := by
  obtain ⟨hjne, hjh, hjl, hjn⟩ := joinSegs_props segs hne hv
  have hu2 := urlOk_noDS url hu
  have hdata : (url ++ "/" ++ joinSegs segs).data =
      url.data ++ '/' :: (joinSegs segs).data := by
    rw [sdata_append, sdata_append]
    simp [List.append_assoc]
  have hsl : noDS ('/' :: (joinSegs segs).data) = true := by
    cases hx : (joinSegs segs).data with
    | nil => exact absurd hx hjne
    | cons c r =>
      have hc : c ≠ '/' := by
        intro hc
        exact hjh (by rw [hx, hc]; rfl)
      rw [hx] at hjn
      simp only [noDS, Bool.and_eq_true]
      exact ⟨by simp [hc], hjn⟩
  have hgoal : (pubKey url segs).data =
      collapseL (url.data ++ '/' :: (joinSegs segs).data) := by
    show (collapseDS (url ++ "/" ++ joinSegs segs)).data = _
    rw [show ∀ s, (collapseDS s).data = collapseL s.data from fun s => rfl, hdata]
  rw [hgoal]
  by_cases hl : url.data.getLast? = some '/'
  · have hud : url.data ≠ [] := by
      intro h0
      rw [h0] at hl
      simp at hl
    have hglast : url.data.getLast hud = '/' := by
      have := List.getLast?_eq_getLast url.data hud
      rw [this] at hl
      exact Option.some.inj hl
    have hsplit : url.data.dropLast ++ ['/'] = url.data := by
      have := List.dropLast_append_getLast hud
      rw [hglast] at this
      exact this
    have hfull : url.data ++ '/' :: (joinSegs segs).data =
        url.data.dropLast ++ '/' :: '/' :: (joinSegs segs).data := by
      rw [← hsplit]
      simp [List.append_assoc]
    rw [hfull,
      collapse_junction _ _ (noDS_append_left _ _ (by rw [hsplit]; exact hu2))
        (noDS_snoc_slash _ (by rw [hsplit]; exact hu2)) hjn hjh,
      normU, if_pos hl]
  · have hno : noDS (url.data ++ '/' :: (joinSegs segs).data) = true :=
      noDS_glue _ _ hu2 hsl (fun h => absurd h hl)
    rw [collapse_noDS _ hno, normU, if_neg hl]

theorem pubKey_inj (url : String) (s1 s2 : List String) (hu : urlOk url = true)
    (h1 : s1 ≠ []) (h2 : s2 ≠ []) (hv1 : ∀ n ∈ s1, validName n = true)
    (hv2 : ∀ n ∈ s2, validName n = true) (heq : pubKey url s1 = pubKey url s2) :
    s1 = s2 := by
  have hd := congrArg String.data heq
  rw [pubKey_data url s1 hu h1 hv1, pubKey_data url s2 hu h2 hv2] at hd
  have hsuf := List.append_cancel_left hd
  have hj : joinSegs s1 = joinSegs s2 :=
    strData_inj _ _ (List.cons.inj hsuf).2
  exact joinSegs_inj s1 s2 h1 h2 hv1 hv2 hj

theorem pubKey_head (url : String) (segs : List String) (hu : urlOk url = true)
    (hne : segs ≠ []) (hv : ∀ n ∈ segs, validName n = true) :
    (pubKey url segs).data.head? = some '/' := by
  rw [pubKey_data url segs hu hne hv]
  cases hn : normU url.data with
  | nil => rfl
  | cons c r =>
    have hh := urlOk_head url hu
    have hc : c = '/' := by
      unfold normU at hn
      by_cases hl : url.data.getLast? = some '/'
      · rw [if_pos hl] at hn
        cases hx : url.data with
        | nil => rw [hx] at hh; simp at hh
        | cons x xs =>
          rw [hx] at hn
          cases xs with
          | nil => simp at hn
          | cons y ys =>
            rw [List.dropLast_cons₂] at hn
            have hx2 : x = '/' := by
              rw [hx] at hh
              simpa using hh
            rw [← (List.cons.inj hn).1]
            exact hx2
      · rw [if_neg hl] at hn
        rw [hn] at hh
        simpa using hh
    rw [List.cons_append, List.head?_cons, hc]

theorem pubKey_ne_reserved (url : String) (segs : List String) (hu : urlOk url = true)
    (hne : segs ≠ []) (hv : ∀ n ∈ segs, validName n = true) :
    pubKey url segs ≠ notFoundKey ∧ pubKey url segs ≠ navKey := by
  have hh := pubKey_head url segs hu hne hv
  constructor
  · intro heq
    rw [heq] at hh
    exact absurd hh (by decide)
  · intro heq
    rw [heq] at hh
    exact absurd hh (by decide)

end MinuetWebModel

namespace MinuetWebModel

theorem pathOfSegs_step (tp n : String) (rest : List String) (h : rest ≠ []) :
    pathOfSegs tp (n :: rest) = pathOfSegs (tp ++ "/" ++ n) rest := by
  unfold pathOfSegs
  rw [joinSegs_cons n rest h]
  apply strData_inj
  simp [sdata_append, List.append_assoc]

theorem bufKey_eq_pubKey (url rootDir : String) (segs : List String) :
    bufKeyP url rootDir.data.length (pathOfSegs rootDir segs) = pubKey url segs := by
  unfold bufKeyP pathOfSegs pubKey jsSubstrFrom
  congr 1
  apply strData_inj
  rw [sdata_append, strOf_data, sdata_append, sdata_append, sdata_append, sdata_append]
  rw [List.append_assoc]
  rw [List.drop_left]
  simp [List.append_assoc]

theorem walkRecs_fileE_pos (mimes : List (String × String)) (maxSize : Nat)
    (n : String) (c : List Nat) (r : FsT) (tp : String)
    (h1 : hasMine mimes n = true) (h2 : ¬ c.length > maxSize) :
    walkRecs mimes maxSize (.fileE n c r) tp =
      (tp ++ "/" ++ n, c) :: walkRecs mimes maxSize r tp := by
  simp only [walkRecs]
  rw [if_pos ⟨h1, h2⟩]

theorem walkRecs_fileE_neg (mimes : List (String × String)) (maxSize : Nat)
    (n : String) (c : List Nat) (r : FsT) (tp : String)
    (h : ¬ (hasMine mimes n = true ∧ ¬ c.length > maxSize)) :
    walkRecs mimes maxSize (.fileE n c r) tp = walkRecs mimes maxSize r tp := by
  simp only [walkRecs]
  rw [if_neg h]

theorem searchE_ok_charn : ∀ (t : FsT) (m : MinuetWeb) (tp : String) (m' : MinuetWeb),
    searchE m t tp = .ok m' →
    m' = { m with
      buffers := (walkRecs m.mimes m.bufferingMaxSize t tp).foldl
        (fun b r => objSet b (bufKeyP m.url m.rootDir.data.length r.1) r.2) m.buffers,
      directoryBuffers := m.directoryBuffers ++ walkDirs m.rootDir.data.length t tp } := by
  intro t
  induction t with
  | nilE =>
    intro m tp m' h
    have hm : m = m' := Except.ok.inj h
    rw [← hm]
    simp [walkRecs, walkDirs]
  | fileE n c r ih =>
    intro m tp m' h
    unfold searchE at h
    by_cases h1 : hasMine m.mimes n = true
    · by_cases h2 : c.length > m.bufferingMaxSize
      · rw [if_pos h1, if_pos h2] at h
        rw [ih m tp m' h,
          walkRecs_fileE_neg m.mimes m.bufferingMaxSize n c r tp (fun hc => hc.2 h2)]
        simp [walkDirs]
      · rw [if_pos h1, if_neg h2] at h
        rw [ih (addBuffer m (tp ++ "/" ++ n) c) tp m' h,
          walkRecs_fileE_pos m.mimes m.bufferingMaxSize n c r tp h1 h2]
        rcases m with ⟨mu, mrd, mmi, mhd, mbu, mbm, mdr, mnf, mdi, mln, mbf, mdb⟩
        simp [addBuffer, walkDirs, List.foldl_cons]
    · rw [if_neg h1] at h
      rw [ih m tp m' h,
        walkRecs_fileE_neg m.mimes m.bufferingMaxSize n c r tp (fun hc => h1 hc.1)]
      simp [walkDirs]
  | dirE n ch r ihch ihr =>
    intro m tp m' h
    simp only [searchE] at h
    cases hch : searchE { m with directoryBuffers :=
        m.directoryBuffers ++ [dirKeyP m.rootDir.data.length (tp ++ "/" ++ n)] }
        ch (tp ++ "/" ++ n) with
    | error m2 =>
      rw [hch] at h
      exact absurd h (by simp)
    | ok m2 =>
      rw [hch] at h
      have e1 := ihch _ _ m2 hch
      have e2 := ihr m2 tp m' h
      rw [e2, e1]
      rcases m with ⟨mu, mrd, mmi, mhd, mbu, mbm, mdr, mnf, mdi, mln, mbf, mdb⟩
      simp [walkRecs, walkDirs, List.foldl_append, List.append_assoc]
  | badDirE n r ih =>
    intro m tp m' h
    unfold searchE at h
    exact absurd h (by simp)

end MinuetWebModel

namespace MinuetWebModel

theorem objGet_foldl_absent {α : Type} (kf : String → String) (k : String) :
    ∀ (l : List (String × α)) (b : List (String × α)),
      (∀ r ∈ l, kf r.1 ≠ k) →
      objGet (l.foldl (fun b r => objSet b (kf r.1) r.2) b) k = objGet b k := by
  intro l
  induction l with
  | nil => intro b _; rfl
  | cons r rest ih =>
    intro b hni
    rw [List.foldl_cons, ih _ (fun r2 h2 => hni r2 (List.mem_cons_of_mem _ h2))]
    exact objGet_objSet_ne b k (kf r.1) r.2 (fun heq => hni r (by simp) heq.symm)

theorem objGet_foldl_all {α : Type} (kf : String → String) (k : String) (v : α) :
    ∀ (l : List (String × α)) (b : List (String × α)),
      (∃ r ∈ l, kf r.1 = k) → (∀ r ∈ l, kf r.1 = k → r.2 = v) →
      objGet (l.foldl (fun b r => objSet b (kf r.1) r.2) b) k = some v := by
  intro l
  induction l with
  | nil =>
    intro b hex _
    rcases hex with ⟨r, hr, _⟩
    exact absurd hr (List.not_mem_nil r)
  | cons r rest ih =>
    intro b hex hall
    rw [List.foldl_cons]
    by_cases hrest : ∃ r2 ∈ rest, kf r2.1 = k
    · exact ih _ hrest (fun r2 h2 => hall r2 (List.mem_cons_of_mem _ h2))
    · have hr : kf r.1 = k := by
        rcases hex with ⟨r2, hr2, hk2⟩
        rcases List.mem_cons.mp hr2 with h | h
        · rw [← h]; exact hk2
        · exact absurd ⟨r2, h, hk2⟩ hrest
      have hv : r.2 = v := hall r (by simp) hr
      rw [objGet_foldl_absent kf k rest _ (fun r2 h2 heq => hrest ⟨r2, h2, heq⟩), hr, hv]
      exact objGet_objSet_self b k v

theorem objGet_foldl_exists {α : Type} (kf : String → String) (k : String) (v : α) :
    ∀ (l : List (String × α)) (b : List (String × α)),
      objGet (l.foldl (fun b r => objSet b (kf r.1) r.2) b) k = some v →
      (∃ r ∈ l, kf r.1 = k ∧ r.2 = v) ∨ objGet b k = some v := by
  intro l
  induction l with
  | nil => intro b h; exact Or.inr h
  | cons r rest ih =>
    intro b h
    rw [List.foldl_cons] at h
    rcases ih _ h with hl | hr
    · rcases hl with ⟨r2, h2, hk2, hv2⟩
      exact Or.inl ⟨r2, List.mem_cons_of_mem _ h2, hk2, hv2⟩
    · by_cases hk : kf r.1 = k
      · rw [hk, objGet_objSet_self] at hr
        exact Or.inl ⟨r, by simp, hk, Option.some.inj hr⟩
      · rw [objGet_objSet_ne b k (kf r.1) r.2 (fun heq => hk heq.symm)] at hr
        exact Or.inr hr

theorem not_mem_of_contains_false (l : List String) (x : String)
    (h : l.contains x = false) : x ∉ l := by
  intro hmem
  rw [show l.contains x = l.elem x from rfl, List.elem_eq_true_of_mem hmem] at h
  exact absurd h (by simp)

theorem namesDistinct_head (x : String) (l : List String)
    (h : namesDistinct (x :: l) = true) : x ∉ l ∧ namesDistinct l = true := by
  simp only [namesDistinct, Bool.and_eq_true, Bool.not_eq_true'] at h
  exact ⟨not_mem_of_contains_false l x h.1, h.2⟩

theorem wfT_fileE (nm : String) (ct : List Nat) (r : FsT)
    (h : wfT (.fileE nm ct r) = true) :
    validName nm = true ∧ nm ∉ namesOf r ∧ wfT r = true := by
  simp only [wfT, namesOf, wfChain, Bool.and_eq_true] at h
  obtain ⟨hx, hl⟩ := namesDistinct_head nm (namesOf r) h.1
  exact ⟨h.2.1, hx, by simp only [wfT, Bool.and_eq_true]; exact ⟨hl, h.2.2⟩⟩

theorem wfT_dirE (nm : String) (ch r : FsT) (h : wfT (.dirE nm ch r) = true) :
    validName nm = true ∧ nm ∉ namesOf r ∧ wfT ch = true ∧ wfT r = true := by
  simp only [wfT, namesOf, wfChain, Bool.and_eq_true, and_assoc] at h
  obtain ⟨hnd, hv, hndch, hwch, hwr⟩ := h
  obtain ⟨hx, hl⟩ := namesDistinct_head nm (namesOf r) hnd
  refine ⟨hv, hx, ?_, ?_⟩
  · simp only [wfT, Bool.and_eq_true]
    exact ⟨hndch, hwch⟩
  · simp only [wfT, Bool.and_eq_true]
    exact ⟨hl, hwr⟩

theorem wfT_badDirE (nm : String) (r : FsT) (h : wfT (.badDirE nm r) = true) :
    validName nm = true ∧ nm ∉ namesOf r ∧ wfT r = true := by
  simp only [wfT, namesOf, wfChain, Bool.and_eq_true] at h
  obtain ⟨hx, hl⟩ := namesDistinct_head nm (namesOf r) h.1
  exact ⟨h.2.1, hx, by simp only [wfT, Bool.and_eq_true]; exact ⟨hl, h.2.2⟩⟩

theorem wfChain_of_wfT (t : FsT) (h : wfT t = true) : wfChain t = true := by
  simp only [wfT, Bool.and_eq_true] at h
  exact h.2

theorem fileAt_validNames : ∀ (t : FsT) (segs : List String) (c : List Nat),
    wfChain t = true → fileAt t segs = some c → ∀ n ∈ segs, validName n = true := by
  intro t
  induction t with
  | nilE =>
    intro segs c _ h
    simp [fileAt] at h
  | fileE nm ct r ih =>
    intro segs c hwf hf n hn
    cases segs with
    | nil => simp [fileAt] at hf
    | cons s rest =>
      have hw : validName nm = true ∧ wfChain r = true := by
        simpa [wfChain, Bool.and_eq_true] using hwf
      by_cases hs : nm = s
      · simp only [fileAt, if_pos hs] at hf
        cases rest with
        | nil =>
          rcases List.mem_singleton.mp hn with rfl
          rw [← hs]
          exact hw.1
        | cons m2 r2 => simp at hf
      · simp only [fileAt, if_neg hs] at hf
        exact ih (s :: rest) c hw.2 hf n hn
  | dirE nm ch r ihch ihr =>
    intro segs c hwf hf n hn
    cases segs with
    | nil => simp [fileAt] at hf
    | cons s rest =>
      have hw : validName nm = true ∧ namesDistinct (namesOf ch) = true ∧
          wfChain ch = true ∧ wfChain r = true := by
        simpa [wfChain, Bool.and_eq_true, and_assoc] using hwf
      by_cases hs : nm = s
      · simp only [fileAt, if_pos hs] at hf
        cases rest with
        | nil => simp at hf
        | cons m2 r2 =>
          simp only [List.isEmpty_cons, Bool.false_eq_true, if_false] at hf
          rcases List.mem_cons.mp hn with rfl | hn2
          · rw [← hs]; exact hw.1
          · exact ihch (m2 :: r2) c hw.2.2.1 hf n hn2
      · simp only [fileAt, if_neg hs] at hf
        exact ihr (s :: rest) c hw.2.2.2 hf n hn
  | badDirE nm r ih =>
    intro segs c hwf hf n hn
    cases segs with
    | nil => simp [fileAt] at hf
    | cons s rest =>
      have hw : validName nm = true ∧ wfChain r = true := by
        simpa [wfChain, Bool.and_eq_true] using hwf
      by_cases hs : nm = s
      · simp only [fileAt, if_pos hs] at hf
        exact absurd hf (by simp)
      · simp only [fileAt, if_neg hs] at hf
        exact ih (s :: rest) c hw.2 hf n hn

end MinuetWebModel

namespace MinuetWebModel

theorem walkRecs_dirE (mimes : List (String × String)) (maxSize : Nat)
    (nm : String) (ch r : FsT) (tp : String) :
    walkRecs mimes maxSize (.dirE nm ch r) tp =
      walkRecs mimes maxSize ch (tp ++ "/" ++ nm) ++ walkRecs mimes maxSize r tp := by
  simp only [walkRecs]

theorem walkRecs_badDirE (mimes : List (String × String)) (maxSize : Nat)
    (nm : String) (r : FsT) (tp : String) :
    walkRecs mimes maxSize (.badDirE nm r) tp = walkRecs mimes maxSize r tp := by
  simp only [walkRecs]

theorem walkRecs_mem_of_fileAt (mimes : List (String × String)) (maxSize : Nat) :
    ∀ (t : FsT) (segs : List String) (c : List Nat) (tp name : String),
      fileAt t segs = some c → segs.getLast? = some name →
      hasMine mimes name = true → ¬ c.length > maxSize →
      (pathOfSegs tp segs, c) ∈ walkRecs mimes maxSize t tp := by
  intro t
  induction t with
  | nilE =>
    intro segs c tp name hf
    simp [fileAt] at hf
  | fileE nm ct r ih =>
    intro segs c tp name hf hlast hmime hsize
    cases segs with
    | nil => simp [fileAt] at hf
    | cons s rest =>
      by_cases hs : nm = s
      · simp only [fileAt, if_pos hs] at hf
        cases rest with
        | nil =>
          simp at hf
          have hname : name = s := by
            simp only [List.getLast?_singleton, Option.some.injEq] at hlast
            exact hlast.symm
          subst hf
          rw [walkRecs_fileE_pos mimes maxSize nm ct r tp
            (by rw [hs, ← hname]; exact hmime) hsize]
          have hpath : pathOfSegs tp [s] = tp ++ "/" ++ nm := by
            rw [hs]; rfl
          rw [hpath]
          exact List.mem_cons_self _ _
        | cons m2 r2 => simp at hf
      · simp only [fileAt, if_neg hs] at hf
        have hrec := ih (s :: rest) c tp name hf hlast hmime hsize
        by_cases hcond : hasMine mimes nm = true ∧ ¬ ct.length > maxSize
        · rw [walkRecs_fileE_pos mimes maxSize nm ct r tp hcond.1 hcond.2]
          exact List.mem_cons_of_mem _ hrec
        · rw [walkRecs_fileE_neg mimes maxSize nm ct r tp hcond]
          exact hrec
  | dirE nm ch r ihch ihr =>
    intro segs c tp name hf hlast hmime hsize
    cases segs with
    | nil => simp [fileAt] at hf
    | cons s rest =>
      by_cases hs : nm = s
      · simp only [fileAt, if_pos hs] at hf
        cases rest with
        | nil => simp at hf
        | cons m2 r2 =>
          simp only [List.isEmpty_cons, Bool.false_eq_true, if_false] at hf
          have hlast2 : (m2 :: r2).getLast? = some name := by
            rw [List.getLast?_cons_cons] at hlast
            exact hlast
          have hrec := ihch (m2 :: r2) c (tp ++ "/" ++ nm) name hf hlast2 hmime hsize
          rw [walkRecs_dirE,
            show pathOfSegs tp (s :: m2 :: r2) = pathOfSegs (tp ++ "/" ++ s) (m2 :: r2)
              from pathOfSegs_step tp s (m2 :: r2) (by simp), ← hs]
          exact List.mem_append_left _ hrec
      · simp only [fileAt, if_neg hs] at hf
        have hrec := ihr (s :: rest) c tp name hf hlast hmime hsize
        rw [walkRecs_dirE]
        exact List.mem_append_right _ hrec
  | badDirE nm r ih =>
    intro segs c tp name hf hlast hmime hsize
    cases segs with
    | nil => simp [fileAt] at hf
    | cons s rest =>
      by_cases hs : nm = s
      · simp only [fileAt, if_pos hs] at hf
        exact absurd hf (by simp)
      · simp only [fileAt, if_neg hs] at hf
        rw [walkRecs_badDirE]
        exact ih (s :: rest) c tp name hf hlast hmime hsize

end MinuetWebModel

namespace MinuetWebModel

theorem fileAt_fileE_ne (nm : String) (ct : List Nat) (r : FsT) (s : String)
    (rest : List String) (h : nm ≠ s) :
    fileAt (.fileE nm ct r) (s :: rest) = fileAt r (s :: rest) := by
  simp only [fileAt, if_neg h]

theorem fileAt_dirE_ne (nm : String) (ch r : FsT) (s : String)
    (rest : List String) (h : nm ≠ s) :
    fileAt (.dirE nm ch r) (s :: rest) = fileAt r (s :: rest) := by
  simp only [fileAt, if_neg h]

theorem fileAt_badDirE_ne (nm : String) (r : FsT) (s : String)
    (rest : List String) (h : nm ≠ s) :
    fileAt (.badDirE nm r) (s :: rest) = fileAt r (s :: rest) := by
  simp only [fileAt, if_neg h]

theorem walkRecs_elim (mimes : List (String × String)) (maxSize : Nat) :
    ∀ (t : FsT) (tp fp : String) (c : List Nat),
      wfT t = true → (fp, c) ∈ walkRecs mimes maxSize t tp →
      ∃ segs name hd tl, segs = hd :: tl ∧ hd ∈ namesOf t ∧
        fileAt t segs = some c ∧ segs.getLast? = some name ∧
        hasMine mimes name = true ∧ ¬ c.length > maxSize ∧
        fp = pathOfSegs tp segs ∧ (∀ n ∈ segs, validName n = true) := by
  intro t
  induction t with
  | nilE =>
    intro tp fp c _ hmem
    simp [walkRecs] at hmem
  | fileE nm ct r ih =>
    intro tp fp c hwf hmem
    obtain ⟨hv, hnotin, hwr⟩ := wfT_fileE nm ct r hwf
    have hlift : ((fp, c) ∈ walkRecs mimes maxSize r tp) →
        ∃ segs name hd tl, segs = hd :: tl ∧ hd ∈ namesOf (FsT.fileE nm ct r) ∧
          fileAt (FsT.fileE nm ct r) segs = some c ∧ segs.getLast? = some name ∧
          hasMine mimes name = true ∧ ¬ c.length > maxSize ∧
          fp = pathOfSegs tp segs ∧ (∀ n ∈ segs, validName n = true) := by
      intro hmem2
      obtain ⟨segs, name, hd, tl, hseq, hhd, hfile, hlast, hmime, hsize, hfp, hvalid⟩ :=
        ih tp fp c hwr hmem2
      have hne : nm ≠ hd := fun h => hnotin (h ▸ hhd)
      refine ⟨segs, name, hd, tl, hseq, ?_, ?_, hlast, hmime, hsize, hfp, hvalid⟩
      · exact List.mem_cons_of_mem _ hhd
      · rw [hseq, fileAt_fileE_ne nm ct r hd tl hne, ← hseq]
        exact hfile
    by_cases hcond : hasMine mimes nm = true ∧ ¬ ct.length > maxSize
    · rw [walkRecs_fileE_pos mimes maxSize nm ct r tp hcond.1 hcond.2] at hmem
      rcases List.mem_cons.mp hmem with hhead | htail
      · have hfp : fp = tp ++ "/" ++ nm := congrArg Prod.fst hhead
        have hc : c = ct := congrArg Prod.snd hhead
        subst hc
        refine ⟨[nm], nm, nm, [], rfl, List.mem_cons_self _ _, ?_, rfl, hcond.1,
          hcond.2, hfp, ?_⟩
        · simp [fileAt]
        · intro n hn
          rcases List.mem_singleton.mp hn with rfl
          exact hv
      · exact hlift htail
    · rw [walkRecs_fileE_neg mimes maxSize nm ct r tp hcond] at hmem
      exact hlift hmem
  | dirE nm ch r ihch ihr =>
    intro tp fp c hwf hmem
    obtain ⟨hv, hnotin, hwch, hwr⟩ := wfT_dirE nm ch r hwf
    rw [walkRecs_dirE] at hmem
    rcases List.mem_append.mp hmem with hleft | hright
    · obtain ⟨segs, name, hd, tl, hseq, hhd, hfile, hlast, hmime, hsize, hfp, hvalid⟩ :=
        ihch (tp ++ "/" ++ nm) fp c hwch hleft
      refine ⟨nm :: segs, name, nm, segs, rfl, List.mem_cons_self _ _, ?_, ?_, hmime,
        hsize, ?_, ?_⟩
      · simp only [fileAt, if_pos rfl]
        rw [hseq]
        simp only [List.isEmpty_cons, Bool.false_eq_true, if_false]
        rw [← hseq]
        exact hfile
      · rw [hseq, List.getLast?_cons_cons, ← hseq]
        exact hlast
      · rw [pathOfSegs_step tp nm segs (by rw [hseq]; simp)]
        exact hfp
      · intro n hn
        rcases List.mem_cons.mp hn with rfl | hn2
        · exact hv
        · exact hvalid n hn2
    · obtain ⟨segs, name, hd, tl, hseq, hhd, hfile, hlast, hmime, hsize, hfp, hvalid⟩ :=
        ihr tp fp c hwr hright
      have hne : nm ≠ hd := fun h => hnotin (h ▸ hhd)
      refine ⟨segs, name, hd, tl, hseq, List.mem_cons_of_mem _ hhd, ?_, hlast, hmime,
        hsize, hfp, hvalid⟩
      rw [hseq, fileAt_dirE_ne nm ch r hd tl hne, ← hseq]
      exact hfile
  | badDirE nm r ih =>
    intro tp fp c hwf hmem
    obtain ⟨hv, hnotin, hwr⟩ := wfT_badDirE nm r hwf
    rw [walkRecs_badDirE] at hmem
    obtain ⟨segs, name, hd, tl, hseq, hhd, hfile, hlast, hmime, hsize, hfp, hvalid⟩ :=
      ih tp fp c hwr hmem
    have hne : nm ≠ hd := fun h => hnotin (h ▸ hhd)
    refine ⟨segs, name, hd, tl, hseq, List.mem_cons_of_mem _ hhd, ?_, hlast, hmime,
      hsize, hfp, hvalid⟩
    rw [hseq, fileAt_badDirE_ne nm r hd tl hne, ← hseq]
    exact hfile

end MinuetWebModel

namespace MinuetWebModel

theorem updateBuffer_ok_master (m : MinuetWeb) (tree : FsT) (nf ln : Option (List Nat))
    (m' : MinuetWeb) (hb : m.buffering = true)
    (hok : updateBuffer m tree nf ln = .ok m') :
    m'.directoryBuffers = "/" :: walkDirs m.rootDir.data.length tree m.rootDir ∧
    (∀ k, k ≠ notFoundKey → k ≠ navKey →
      objGet m'.buffers k = objGet (walkBuf m tree) k) ∧
    (∀ nb, m.notFound = .ofBool nb → m.listNavigator = false →
      m'.buffers = walkBuf m tree) := by
  unfold updateBuffer at hok
  rw [if_pos hb] at hok
  cases hse : searchE { m with buffers := [], directoryBuffers := ["/"] } tree m.rootDir with
  | error m1 =>
    rw [hse] at hok
    exact absurd hok (by simp)
  | ok m1 =>
    rw [hse] at hok
    dsimp only at hok
    have hchar := searchE_ok_charn tree _ m.rootDir m1 hse
    have hb1 : m1.buffers = walkBuf m tree := by rw [hchar]; rfl
    have hd1 : m1.directoryBuffers =
        "/" :: walkDirs m.rootDir.data.length tree m.rootDir := by rw [hchar]; rfl
    have hnf1 : m1.notFound = m.notFound := by rw [hchar]
    have hln1 : m1.listNavigator = m.listNavigator := by rw [hchar]
    cases hnfm : m1.notFound with
    | ofBool b0 =>
      simp only [hnfm] at hok
      by_cases hln : m1.listNavigator = true
      · rw [if_pos hln] at hok
        cases ln with
        | none => exact absurd hok (by simp)
        | some c2 =>
          have hm' := Except.ok.inj hok
          rw [← hm']
          refine ⟨hd1, ?_, ?_⟩
          · intro k hk1 hk2
            show objGet (objSet m1.buffers navKey c2) k = _
            rw [objGet_objSet_ne _ _ _ _ hk2, hb1]
          · intro nb _ hlnb
            rw [hln1] at hln
            rw [hlnb] at hln
            exact absurd hln (by simp)
      · rw [if_neg hln] at hok
        have hm' := Except.ok.inj hok
        rw [← hm']
        exact ⟨hd1, fun k _ _ => by rw [hb1], fun nb _ _ => hb1⟩
    | ofStr s0 =>
      simp only [hnfm] at hok
      cases nf with
      | none => exact absurd hok (by simp)
      | some c0 =>
        dsimp only at hok
        have hstr : m.notFound = .ofStr s0 := hnf1 ▸ hnfm
        by_cases hln : m1.listNavigator = true
        · rw [if_pos hln] at hok
          cases ln with
          | none => exact absurd hok (by simp)
          | some c2 =>
            have hm' := Except.ok.inj hok
            rw [← hm']
            refine ⟨hd1, ?_, ?_⟩
            · intro k hk1 hk2
              show objGet (objSet (objSet m1.buffers notFoundKey c0) navKey c2) k = _
              rw [objGet_objSet_ne _ _ _ _ hk2, objGet_objSet_ne _ _ _ _ hk1, hb1]
            · intro nb hnfb _
              exact NotFoundOpt.noConfusion (hstr.symm.trans hnfb)
        · rw [if_neg hln] at hok
          have hm' := Except.ok.inj hok
          rw [← hm']
          refine ⟨hd1, ?_, ?_⟩
          · intro k hk1 hk2
            show objGet (objSet m1.buffers notFoundKey c0) k = _
            rw [objGet_objSet_ne _ _ _ _ hk1, hb1]
          · intro nb hnfb _
            exact NotFoundOpt.noConfusion (hstr.symm.trans hnfb)

end MinuetWebModel

namespace MinuetWebModel

theorem objGet_mem {α : Type} : ∀ (l : List (String × α)) (k : String) (v : α),
    objGet l k = some v → (k, v) ∈ l := by
  intro l
  induction l with
  | nil => intro k v h; simp [objGet] at h
  | cons kv rest ih =>
    intro k v h
    rcases kv with ⟨k0, v0⟩
    by_cases hk : k0 = k
    · subst hk
      simp only [objGet, if_true, eq_self_iff_true] at h
      have hv : v0 = v := by simpa using h
      subst hv
      exact List.mem_cons_self _ _
    · simp only [objGet, if_neg hk] at h
      exact List.mem_cons_of_mem _ (ih k v h)

/-! ## Claim C6: Directory Index contents -/

/-- Config and tree for the C6 counterexample: one empty
subdirectory, nothing buffered anywhere. -/
def cfgC6 : MinuetWeb := {}

def treeC6 : FsT := .dirE "empty" .nilE .nilE

/-- C6 is false as stated: after the build the Directory Index holds
`"/empty"` although no buffered asset lies beneath it (the Asset
Store is empty) — the walk records every subdirectory it encounters,
not only ancestors of buffered assets. -/
theorem directory_index_cex :
    (updateBuffer cfgC6 treeC6 none none).isOk = true ∧
    (exceptState (updateBuffer cfgC6 treeC6 none none)).directoryBuffers = ["/", "/empty"] ∧
    (exceptState (updateBuffer cfgC6 treeC6 none none)).buffers = [] :=
  ⟨rfl, rfl, rfl⟩

/-- C6 (amended): after every build the Directory Index contains the
root `"/"`, and it is exactly the root followed by the normalized key
of every subdirectory encountered by the walk, in walk order —
whether or not any buffered asset lies beneath that directory. -/
theorem directory_index_build (m : MinuetWeb) (tree : FsT) (nf ln : Option (List Nat))
    (m' : MinuetWeb) (hb : m.buffering = true)
    (hok : updateBuffer m tree nf ln = .ok m') :
    m'.directoryBuffers = "/" :: walkDirs m.rootDir.data.length tree m.rootDir ∧
    "/" ∈ m'.directoryBuffers := by
  have h := (updateBuffer_ok_master m tree nf ln m' hb hok).1
  exact ⟨h, by rw [h]; exact List.mem_cons_self _ _⟩

/-- Tree for the C6 and C7 witnesses. -/
def treeW : FsT := .dirE "sub" (.fileE "a.html" [1, 2] .nilE) .nilE

def cfgW : MinuetWeb := {}

theorem directory_index_build_witness :
    (exceptState (updateBuffer cfgW treeW none none)).directoryBuffers =
      "/" :: walkDirs cfgW.rootDir.data.length treeW cfgW.rootDir ∧
    "/" ∈ (exceptState (updateBuffer cfgW treeW none none)).directoryBuffers :=
  directory_index_build cfgW treeW none none
    (exceptState (updateBuffer cfgW treeW none none)) rfl rfl

/-! ## Claim C7: the Asset Store size/MIME invariant -/

/-- Config for the C7 counterexample: size ceiling zero, custom
not-found page. -/
def cfgC7 : MinuetWeb := { bufferingMaxSize := 0, notFound := .ofStr "error.html" }

/-- C7 is false as stated: loading the reserved not-found sentinel is
not size-checked, so after this build the store holds a value of
size 3 although `bufferingMaxSize` is 0 (and `addBuffer` likewise
inserts unchecked, see `addBuffer`). -/
theorem buffer_invariant_cex :
    (updateBuffer cfgC7 .nilE (some [1, 2, 3]) none).isOk = true ∧
    objGet (exceptState (updateBuffer cfgC7 .nilE (some [1, 2, 3]) none)).buffers
      notFoundKey = some [1, 2, 3] ∧
    ¬ ([1, 2, 3] : List Nat).length ≤ cfgC7.bufferingMaxSize :=
  ⟨rfl, rfl, by decide⟩

/-- C7 (amended): the invariant holds for the walk-inserted entries:
after a successful build with a boolean not-found policy and the
navigator disabled, every Asset Store entry is the content of a
walked file whose name's extension passes the MIME check, its size
is within `bufferingMaxSize`, and its key is the file's public path;
the reserved sentinel loads and `addBuffer` perform no such checks
and can violate the invariant. -/
theorem walk_buffer_invariant (m : MinuetWeb) (tree : FsT) (nf ln : Option (List Nat))
    (m' : MinuetWeb) (nb : Bool) (hb : m.buffering = true) (hwf : wfT tree = true)
    (hnf : m.notFound = .ofBool nb) (hnav : m.listNavigator = false)
    (hok : updateBuffer m tree nf ln = .ok m') :
    ∀ k v, objGet m'.buffers k = some v →
      v.length ≤ m.bufferingMaxSize ∧
      ∃ segs name, segs.getLast? = some name ∧ hasMine m.mimes name = true ∧
        fileAt tree segs = some v ∧ k = pubKey m.url segs := by
  intro k v hk
  have hbuf := (updateBuffer_ok_master m tree nf ln m' hb hok).2.2 nb hnf hnav
  rw [hbuf] at hk
  unfold walkBuf at hk
  rcases objGet_foldl_exists _ k v _ [] hk with ⟨r, hmem, hkey, hval⟩ | habs
  · obtain ⟨segs, name, hd, tl, hseq, hhd, hfile, hlast, hmime, hsize, hfp, hvalid⟩ :=
      walkRecs_elim m.mimes m.bufferingMaxSize tree m.rootDir r.1 r.2 hwf hmem
    refine ⟨?_, segs, name, hlast, hmime, by rw [← hval]; exact hfile, ?_⟩
    · rw [← hval]
      exact Nat.le_of_not_lt hsize
    · rw [← hkey, hfp, bufKey_eq_pubKey]
  · exact absurd habs (by simp [objGet])

theorem walk_buffer_invariant_witness :
    ([1, 2] : List Nat).length ≤ cfgW.bufferingMaxSize ∧
    ∃ segs name, segs.getLast? = some name ∧ hasMine cfgW.mimes name = true ∧
      fileAt treeW segs = some [1, 2] ∧ "/sub/a.html" = pubKey cfgW.url segs :=
  walk_buffer_invariant cfgW treeW none none
    (exceptState (updateBuffer cfgW treeW none none)) false rfl rfl rfl rfl rfl
    "/sub/a.html" [1, 2] rfl

end MinuetWebModel

namespace MinuetWebModel

/-! ## Claim C2: Asset Store contents after a build -/

/-- C2: after a successful build, a file of the tree whose extension
has a (truthy) entry in the MIME table and whose size is within
`bufferingMaxSize` is present in the Asset Store at its public path
(URL prefix plus root-relative path, double slashes collapsed) with
byte-identical content, and a file whose extension is absent from the
MIME table (including files with no extension) or whose size exceeds
the ceiling has no entry at its public path. -/
theorem asset_store_build (m : MinuetWeb) (tree : FsT) (nf ln : Option (List Nat))
    (m' : MinuetWeb) (segs : List String) (name : String) (content : List Nat)
    (hb : m.buffering = true) (hwf : wfT tree = true)
    (hmwf : ∀ kv ∈ m.mimes, kv.2 ≠ "")
    (hurl : urlOk m.url = true)
    (hok : updateBuffer m tree nf ln = .ok m')
    (hf : fileAt tree segs = some content)
    (hlast : segs.getLast? = some name) :
    objGet m'.buffers (pubKey m.url segs) =
      (if extOf name ≠ "" ∧ (objGet m.mimes (extOf name)).isSome = true ∧
          content.length ≤ m.bufferingMaxSize then some content else none) := by
  have hne : segs ≠ [] := by
    intro h
    rw [h] at hlast
    simp at hlast
  have hvalid : ∀ n ∈ segs, validName n = true :=
    fileAt_validNames tree segs content (wfChain_of_wfT tree hwf) hf
  have hnr := pubKey_ne_reserved m.url segs hurl hne hvalid
  have hmaster := (updateBuffer_ok_master m tree nf ln m' hb hok).2.1
    (pubKey m.url segs) hnr.1 hnr.2
  rw [hmaster]
  unfold walkBuf
  have hmine_iff : hasMine m.mimes name = true ↔
      (extOf name ≠ "" ∧ (objGet m.mimes (extOf name)).isSome = true) := by
    constructor
    · intro h
      unfold hasMine at h
      by_cases hx : extOf name = ""
      · rw [if_pos hx] at h
        exact absurd h (by simp)
      · rw [if_neg hx] at h
        cases ho : objGet m.mimes (extOf name) with
        | none =>
          rw [ho] at h
          exact absurd h (by simp)
        | some v => exact ⟨hx, rfl⟩
    · intro hx
      unfold hasMine
      rw [if_neg hx.1]
      cases ho : objGet m.mimes (extOf name) with
      | none =>
        rw [ho] at hx
        exact absurd hx.2 (by simp)
      | some v =>
        have hv : v ≠ "" := hmwf (extOf name, v) (objGet_mem m.mimes (extOf name) v ho)
        simp [hv]
  by_cases helig : extOf name ≠ "" ∧ (objGet m.mimes (extOf name)).isSome = true ∧
      content.length ≤ m.bufferingMaxSize
  · rw [if_pos helig]
    have hmine : hasMine m.mimes name = true := hmine_iff.mpr ⟨helig.1, helig.2.1⟩
    have hsize : ¬ content.length > m.bufferingMaxSize := Nat.not_lt.mpr helig.2.2
    apply objGet_foldl_all
    · exact ⟨(pathOfSegs m.rootDir segs, content),
        walkRecs_mem_of_fileAt m.mimes m.bufferingMaxSize tree segs content m.rootDir
          name hf hlast hmine hsize,
        bufKey_eq_pubKey m.url m.rootDir segs⟩
    · intro r hr hkeq
      obtain ⟨segs', name', hd, tl, hseq, hhd, hfile', hlast', hmime', hsize', hfp', hvalid'⟩ :=
        walkRecs_elim m.mimes m.bufferingMaxSize tree m.rootDir r.1 r.2 hwf hr
      have hkey' : pubKey m.url segs' = pubKey m.url segs := by
        rw [← hkeq, hfp', bufKey_eq_pubKey]
      have hseq2 : segs' = segs := pubKey_inj m.url segs' segs hurl
        (by rw [hseq]; simp) hne hvalid' hvalid hkey'
      rw [hseq2, hf] at hfile'
      exact (Option.some.inj hfile').symm
  · rw [if_neg helig]
    have habsent : ∀ r ∈ walkRecs m.mimes m.bufferingMaxSize tree m.rootDir,
        bufKeyP m.url m.rootDir.data.length r.1 ≠ pubKey m.url segs := by
      intro r hr hkeq
      obtain ⟨segs', name', hd, tl, hseq, hhd, hfile', hlast', hmime', hsize', hfp', hvalid'⟩ :=
        walkRecs_elim m.mimes m.bufferingMaxSize tree m.rootDir r.1 r.2 hwf hr
      have hkey' : pubKey m.url segs' = pubKey m.url segs := by
        rw [← hkeq, hfp', bufKey_eq_pubKey]
      have hseq2 : segs' = segs := pubKey_inj m.url segs' segs hurl
        (by rw [hseq]; simp) hne hvalid' hvalid hkey'
      rw [hseq2] at hfile' hlast'
      have hcv : r.2 = content := by
        rw [hf] at hfile'
        exact (Option.some.inj hfile').symm
      have hnv : name' = name := by
        rw [hlast] at hlast'
        exact (Option.some.inj hlast').symm
      apply helig
      have h1 := hmine_iff.mp (hnv ▸ hmime')
      exact ⟨h1.1, h1.2, by rw [← hcv]; exact Nat.le_of_not_lt hsize'⟩
    rw [objGet_foldl_absent _ _ _ _ habsent]
    rfl

theorem asset_store_build_witness :
    (∀ kv ∈ cfgW.mimes, kv.2 ≠ "") ∧
    objGet (exceptState (updateBuffer cfgW treeW none none)).buffers
        (pubKey cfgW.url ["sub", "a.html"]) =
      (if extOf "a.html" ≠ "" ∧ (objGet cfgW.mimes (extOf "a.html")).isSome = true ∧
          ([1, 2] : List Nat).length ≤ cfgW.bufferingMaxSize
        then some [1, 2] else none) :=
  ⟨by decide,
    asset_store_build cfgW treeW none none
      (exceptState (updateBuffer cfgW treeW none none)) ["sub", "a.html"] "a.html"
      [1, 2] rfl rfl (by decide) rfl rfl rfl rfl⟩

end MinuetWebModel
